import Mathlib

/-!
# Verification of the CPC_audio segmentation / model-composition core

Shallow embedding, in Lean 4, of the algorithmic core of the CPC_audio
repository:

* the adaptive segment-merging boundary detectors and the compress-matrix
  construction of `src/cpc/utils/misc.py` (`kreukBoundaryDetector`,
  `jchBoundaryDetector`, `jhuBoundaryDetector`);
* the prototype-pushing helpers (`pushToClosestForBatch`,
  `CPCModel._FCMlikeBelong` in its `pushDeg` variant);
* the gradual-blend normalization schedule
  (`CPCModel.gradualTrainingNormalize` of `src/cpc/model.py`);
* the recursive checkpoint loader (`loadModel` of
  `src/cpc/feature_loader.py`) together with the `CPCModelNullspace` and
  `ConcatenatedModel` wrappers.

Tensors are modelled as (nested) lists, integer tensors as `List ℕ`,
real-valued tensors as lists over `ℝ` (where square roots occur) or `ℚ`
(where the arithmetic is exact).  Machine integers in the source are
Python/torch arbitrary-precision integers, so `ℕ`/`ℤ` are used directly.
-/

/-! ## Segment-merging loop of `jchBoundaryDetector` (count level)

The `while len(idx) > final_length` loop of `jchBoundaryDetector`
(src/cpc/utils/misc.py lines 68-81) keeps, per iteration, exactly
`num_to_retain = max(final_length, int(idx.shape[-1] * step_reduction))`
of the current boundary indices (`torch.topk` selects that many entries of
`diffs`).  Which indices are kept depends on the feature values; how many
are kept depends only on the current count, which is all that matters for
termination and for the final count bound. -/

/-- `num_to_retain` of one iteration of the merging loop
(src/cpc/utils/misc.py line 78) with the default `step_reduction = 0.2`:
`max(final_length, int(idx.shape[-1] * 0.2))`.  For the integer counts in
play, `int(0.2 * n)` (double multiplication, truncation toward zero)
equals `n / 5` in natural-number division. -/
def numToRetain (finalLength n : ℕ) : ℕ := max finalLength (n / 5)

/-- Count evolution of the `while len(idx) > final_length` merging loop of
`jchBoundaryDetector` (src/cpc/utils/misc.py lines 68-81): starting from
`n` current indices, iterate `n ← numToRetain finalLength n` while
`n > final_length`; the result is the number of boundary indices when the
loop exits. -/
def jchMergeLoopCount (finalLength : ℕ) (n : ℕ) : ℕ :=
  if h : finalLength < n then
    jchMergeLoopCount finalLength (numToRetain finalLength n)
  else n
termination_by n
decreasing_by
  simp only [numToRetain, Nat.max_lt]
  exact ⟨h, Nat.div_lt_self (Nat.lt_of_le_of_lt (Nat.zero_le _) h) (by norm_num)⟩

theorem jchMergeLoopCount_le (finalLength : ℕ) :
    ∀ n, jchMergeLoopCount finalLength n ≤ max finalLength n := by
  intro n
  induction n using Nat.strong_induction_on with
  | _ n ih =>
    rw [jchMergeLoopCount]
    by_cases h : finalLength < n
    · simp only [h, dif_pos]
      have hlt : numToRetain finalLength n < n := by
        simp only [numToRetain, Nat.max_lt]
        exact ⟨h, Nat.div_lt_self (Nat.lt_of_le_of_lt (Nat.zero_le _) h) (by norm_num)⟩
      exact le_trans (ih _ hlt)
        (max_le (le_max_left _ _)
          (le_trans (le_max_right finalLength _) (max_le (le_max_left _ _)
            (le_trans hlt.le (le_max_right _ _)))))
    · simp only [h, dif_neg, not_false_iff]
      exact le_max_right _ _

theorem jchMergeLoopCount_le_finalLength (finalLength : ℕ) :
    ∀ n, finalLength < n → jchMergeLoopCount finalLength n ≤ finalLength := by
  intro n
  induction n using Nat.strong_induction_on with
  | _ n ih =>
    intro h
    rw [jchMergeLoopCount]
    simp only [h, dif_pos]
    have hlt : numToRetain finalLength n < n := by
      simp only [numToRetain, Nat.max_lt]
      exact ⟨h, Nat.div_lt_self (Nat.lt_of_le_of_lt (Nat.zero_le _) h) (by norm_num)⟩
    by_cases h' : finalLength < numToRetain finalLength n
    · exact ih _ hlt h'
    · rw [jchMergeLoopCount]
      simp only [h', dif_neg, not_false_iff]
      exact Nat.le_of_not_lt h'

/-- C6: with `final_length = int(final_length_factor * (B*L+1))`, each
iteration of the merging loop of `jchBoundaryDetector` retains
`max(final_length, int(0.2 * current_count))` boundary indices, which is
strictly fewer than the current count whenever that count exceeds
`final_length`; hence the loop (here: its count evolution, a terminating
function) exits after finitely many iterations with at most `final_length`
boundary indices (before the sequence-end indices are re-added). -/
theorem jch_merge_loop_terminates (finalLength n : ℕ) :
    (finalLength < n → numToRetain finalLength n < n) ∧
    jchMergeLoopCount finalLength n ≤ max finalLength n ∧
    (finalLength < n → jchMergeLoopCount finalLength n ≤ finalLength) := by
  refine ⟨fun h => ?_, jchMergeLoopCount_le finalLength n,
    jchMergeLoopCount_le_finalLength finalLength n⟩
  simp only [numToRetain, Nat.max_lt]
  exact ⟨h, Nat.div_lt_self (Nat.lt_of_le_of_lt (Nat.zero_le _) h) (by norm_num)⟩

theorem jch_merge_loop_terminates_witness :
    numToRetain 3 25 < 25 ∧ jchMergeLoopCount 3 25 ≤ 3 :=
  ⟨(jch_merge_loop_terminates 3 25).1 (by decide),
   (jch_merge_loop_terminates 3 25).2.2 (by decide)⟩

/-! ## Minibatch-boundary preservation (C9)

All three boundary detectors finish (in index-returning mode) with
`torch.unique(torch.cat((idx, seqEndIdx)), sorted=True)` where
`seqEndIdx = torch.arange(0, B*L + 1, L)`
(src/cpc/utils/misc.py lines 45-47, 83-88, 142-147). -/

/-- `torch.unique(t, sorted=True)` for a 1-D integer tensor: the strictly
sorted list of distinct values. -/
def uniqueSorted (l : List ℕ) : List ℕ := l.toFinset.sort (· ≤ ·)

/-- `torch.arange(0, B*L + 1, L)` for `L > 0`: the sequence-end indices
`0, L, 2L, ..., B*L` (src/cpc/utils/misc.py lines 46, 84, 145). -/
def seqEndIdx (B L : ℕ) : List ℕ := (List.range (B + 1)).map (fun b => b * L)

/-- Indices returned by `kreukBoundaryDetector`
(src/cpc/utils/misc.py lines 41-47, 56): the peaks found by
`scipy.signal.find_peaks` (replaced by `[0]` when empty), merged with the
sequence-end indices through sorted `torch.unique`. -/
def kreukBoundaryIdx (peaks : List ℕ) (B L : ℕ) : List ℕ :=
  uniqueSorted ((if peaks.isEmpty then [0] else peaks) ++ seqEndIdx B L)

/-- Indices returned by `jchBoundaryDetector` in `justSegmenter` mode
(src/cpc/utils/misc.py lines 83-88): the indices surviving the merging
loop, merged with the sequence-end indices through sorted `torch.unique`. -/
def jchJustSegmenterIdx (idxAfterMerge : List ℕ) (B L : ℕ) : List ℕ :=
  uniqueSorted (idxAfterMerge ++ seqEndIdx B L)

/-- Indices returned by `jhuBoundaryDetector` in `justSegmenter` mode
(src/cpc/utils/misc.py lines 142-147): the nonzero positions of the padded
peak-strength tensor `p`, merged with the sequence-end indices through
sorted `torch.unique`. -/
def jhuJustSegmenterIdx (peakIdx : List ℕ) (B L : ℕ) : List ℕ :=
  uniqueSorted (peakIdx ++ seqEndIdx B L)

theorem uniqueSorted_sorted_lt (l : List ℕ) : (uniqueSorted l).Sorted (· < ·) :=
  Finset.sort_sorted_lt _

theorem uniqueSorted_nodup (l : List ℕ) : (uniqueSorted l).Nodup :=
  Finset.sort_nodup _ _

theorem mem_uniqueSorted {x : ℕ} {l : List ℕ} : x ∈ uniqueSorted l ↔ x ∈ l := by
  simp [uniqueSorted, Finset.mem_sort, List.mem_toFinset]

theorem seqEnd_mem_uniqueSorted_append (l : List ℕ) (B L b : ℕ) (hb : b ≤ B) :
    b * L ∈ uniqueSorted (l ++ seqEndIdx B L) := by
  rw [mem_uniqueSorted]
  refine List.mem_append_right _ ?_
  simp only [seqEndIdx, List.mem_map, List.mem_range]
  exact ⟨b, Nat.lt_succ_of_le hb, rfl⟩

/-- C9: for every `B × L × D` batch, the index sequences returned by
`kreukBoundaryDetector`, by `jchBoundaryDetector` in `justSegmenter` mode,
and by `jhuBoundaryDetector` in `justSegmenter` mode are strictly
increasing, contain no duplicates, and contain every sequence-end index
`0, L, 2L, ..., B*L` — so no produced segment crosses a sequence boundary.
The detector-specific raw indices (`find_peaks` output, merge-loop
survivors, nonzero peak positions) are universally quantified. -/
theorem boundary_detectors_respect_minibatch
    (peaks idxAfterMerge peakIdx : List ℕ) (B L : ℕ) (hL : 0 < L) :
    ((kreukBoundaryIdx peaks B L).Sorted (· < ·) ∧
      (kreukBoundaryIdx peaks B L).Nodup ∧
      ∀ b ≤ B, b * L ∈ kreukBoundaryIdx peaks B L) ∧
    ((jchJustSegmenterIdx idxAfterMerge B L).Sorted (· < ·) ∧
      (jchJustSegmenterIdx idxAfterMerge B L).Nodup ∧
      ∀ b ≤ B, b * L ∈ jchJustSegmenterIdx idxAfterMerge B L) ∧
    ((jhuJustSegmenterIdx peakIdx B L).Sorted (· < ·) ∧
      (jhuJustSegmenterIdx peakIdx B L).Nodup ∧
      ∀ b ≤ B, b * L ∈ jhuJustSegmenterIdx peakIdx B L) := by
  refine ⟨⟨uniqueSorted_sorted_lt _, uniqueSorted_nodup _, fun b hb => ?_⟩,
    ⟨uniqueSorted_sorted_lt _, uniqueSorted_nodup _, fun b hb => ?_⟩,
    ⟨uniqueSorted_sorted_lt _, uniqueSorted_nodup _, fun b hb => ?_⟩⟩ <;>
  exact seqEnd_mem_uniqueSorted_append _ _ _ _ hb

theorem boundary_detectors_respect_minibatch_witness :
    (kreukBoundaryIdx [3, 3, 9] 2 5).Sorted (· < ·) ∧
      2 * 5 ∈ jchJustSegmenterIdx [2, 7] 2 5 := by
  refine ⟨(boundary_detectors_respect_minibatch [3, 3, 9] [2, 7] [4] 2 5 (by decide)).1.1, ?_⟩
  exact (boundary_detectors_respect_minibatch [3, 3, 9] [2, 7] [4] 2 5
    (by decide)).2.1.2.2 2 (by decide)

/-! ## Gradual-blend normalization (`CPCModel.gradualTrainingNormalize`)

src/cpc/model.py lines 405-442.  `part1` and `part2` are tensors whose last
dimension is the feature dimension; all leading dimensions are flattened
here, so a tensor is a list of feature vectors over `ℝ`.  The per-position
"length" is the Euclidean norm, or the sum of absolute values when the
`reprsConcatNormSumsNotLengths` setting is on. -/

/-- `partOfEpochs = (currentEpoch + 1) / (totalEpochs + 1)`
(src/cpc/model.py line 410). -/
noncomputable def partOfEpochs (currentEpoch totalEpochs : ℕ) : ℝ :=
  ((currentEpoch : ℝ) + 1) / ((totalEpochs : ℝ) + 1)

/-- Per-position length of a feature vector: `torch.sqrt((t*t).sum(-1))`,
or `torch.abs(t).sum(-1)` when `sumsNotLengths` (the
`reprsConcatNormSumsNotLengths` setting) is on
(src/cpc/model.py lines 422, 431). -/
noncomputable def tensorLen (sumsNotLengths : Bool) (v : List ℝ) : ℝ :=
  if sumsNotLengths then (v.map (fun x => |x|)).sum
  else Real.sqrt ((v.map (fun x => x * x)).sum)

/-- First returned tensor: each position divided by its clamped length
`torch.clamp(len, min=1.)` and rescaled by `1 - partOfEpochs`
(src/cpc/model.py lines 425-427). -/
noncomputable def part1Out (sums : Bool) (part1 : List (List ℝ))
    (currentEpoch totalEpochs : ℕ) : List (List ℝ) :=
  part1.map (fun v =>
    (v.map (fun x => x / max (tensorLen sums v) 1)).map
      (fun x => x * (1 - partOfEpochs currentEpoch totalEpochs)))

/-- `part1lengthsFinal = (part1lengthsNoClamp / part1lengths) * (1 - partOfEpochs)`
(src/cpc/model.py line 428), per position. -/
noncomputable def part1lengthsFinal (sums : Bool) (v : List ℝ)
    (currentEpoch totalEpochs : ℕ) : ℝ :=
  tensorLen sums v / max (tensorLen sums v) 1 *
    (1 - partOfEpochs currentEpoch totalEpochs)

/-- Second returned tensor:
`part2 * (part1lengthsFinal * partOfEpochs / (1 - partOfEpochs)) / part2lengths`
(src/cpc/model.py line 439); positions of `part1` and `part2` are paired. -/
noncomputable def part2Out (sums : Bool) (part1 part2 : List (List ℝ))
    (currentEpoch totalEpochs : ℕ) : List (List ℝ) :=
  (part1.zip part2).map (fun q =>
    q.2.map (fun x =>
      x * (part1lengthsFinal sums q.1 currentEpoch totalEpochs *
            partOfEpochs currentEpoch totalEpochs /
            (1 - partOfEpochs currentEpoch totalEpochs)) /
        max (tensorLen sums q.2) 1))

/-- `CPCModel.gradualTrainingNormalize` (src/cpc/model.py lines 405-442).
All denominators except one are provably nonzero
(`totalEpochs + 1 ≥ 1`, and the clamped lengths are `≥ 1`); the remaining
denominator `1 - partOfEpochs` (line 439) is zero exactly when
`currentEpoch = totalEpochs`, in which case the float division by zero
poisons the second returned tensor with NaN.  That failure is modelled as
`none`. -/
noncomputable def gradualTrainingNormalize (sums : Bool) (part1 part2 : List (List ℝ))
    (currentEpoch totalEpochs : ℕ) : Option (List (List ℝ) × List (List ℝ)) :=
  if currentEpoch = totalEpochs then none
  else some (part1Out sums part1 currentEpoch totalEpochs,
    part2Out sums part1 part2 currentEpoch totalEpochs)

theorem one_sub_partOfEpochs_eq_zero_iff (c t : ℕ) :
    1 - partOfEpochs c t = 0 ↔ c = t := by
  have ht : ((t : ℝ) + 1) ≠ 0 := by positivity
  rw [sub_eq_zero, eq_comm, partOfEpochs, div_eq_one_iff_eq ht]
  constructor
  · intro h
    have : (c : ℝ) = (t : ℝ) := by linarith
    exact_mod_cast this
  · intro h
    rw [h]

theorem tensorLen_nonneg (sums : Bool) (v : List ℝ) : 0 ≤ tensorLen sums v := by
  unfold tensorLen
  split
  · refine List.sum_nonneg ?_
    intro x hx
    obtain ⟨y, _, rfl⟩ := List.mem_map.1 hx
    exact abs_nonneg y
  · exact Real.sqrt_nonneg _

theorem tensorLen_map_mul (sums : Bool) (v : List ℝ) (c : ℝ) :
    tensorLen sums (v.map (fun x => x * c)) = tensorLen sums v * |c| := by
  unfold tensorLen
  split
  · rw [List.map_map]
    have h1 : ((fun x => |x|) ∘ fun x => x * c) = fun x : ℝ => |x| * |c| := by
      funext x
      simp [abs_mul]
    rw [h1, List.sum_map_mul_right]
  · rw [List.map_map]
    have h1 : ((fun x => x * x) ∘ fun x => x * c) = fun x : ℝ => (x * x) * (c * c) := by
      funext x
      simp only [Function.comp_apply]
      ring
    have h2 : 0 ≤ ((v.map fun x => x * x)).sum := by
      refine List.sum_nonneg ?_
      intro x hx
      obtain ⟨y, _, rfl⟩ := List.mem_map.1 hx
      exact mul_self_nonneg y
    rw [h1, List.sum_map_mul_right, Real.sqrt_mul h2, Real.sqrt_mul_self_eq_abs]

theorem partOfEpochs_nonneg (c t : ℕ) : 0 ≤ partOfEpochs c t := by
  unfold partOfEpochs
  positivity

theorem partOfEpochs_lt_one {c t : ℕ} (h : c < t) : partOfEpochs c t < 1 := by
  unfold partOfEpochs
  rw [div_lt_one (by positivity)]
  have : (c : ℝ) < (t : ℝ) := by exact_mod_cast h
  linarith

theorem clampedLen_pos (sums : Bool) (v : List ℝ) : 0 < max (tensorLen sums v) 1 :=
  lt_of_lt_of_le one_pos (le_max_right _ _)

theorem tensorLen_div_clamp_le_one (sums : Bool) (v : List ℝ) :
    tensorLen sums v / max (tensorLen sums v) 1 ≤ 1 :=
  (div_le_one (clampedLen_pos sums v)).2 (le_max_left _ _)

theorem map_div_map_mul (v : List ℝ) (m s : ℝ) :
    (v.map (fun x => x / m)).map (fun x => x * s) = v.map (fun x => x * (s / m)) := by
  rw [List.map_map]
  congr 1
  funext x
  simp only [Function.comp_apply]
  ring

theorem map_mul_div (v : List ℝ) (a m : ℝ) :
    v.map (fun x => x * a / m) = v.map (fun x => x * (a / m)) := by
  congr 1
  funext x
  ring

/-- C5 counterexample: the claim quantifies over all
`currentEpoch ≤ totalEpochs`, but at `currentEpoch = totalEpochs` (already
at `(0, 0)`) the factor `1 - partOfEpochs` used as a denominator on
src/cpc/model.py line 439 is exactly zero. -/
theorem gradual_normalize_denominator_zero_at_final_epoch :
    0 ≤ 0 ∧ 1 - partOfEpochs 0 0 = 0 :=
  ⟨le_refl 0, (one_sub_partOfEpochs_eq_zero_iff 0 0).2 rfl⟩

/-- C5 (amended: `currentEpoch < totalEpochs`): every denominator in the
blend computation — the `+1`-shifted epoch fraction's denominator
`totalEpochs + 1`, the clamped part lengths `torch.clamp(·, min=1.)`, and
the factor `1 - partOfEpochs` used to rescale the second part — is
non-zero, so the function never divides by zero. -/
theorem gradual_normalize_denominators_nonzero (sums : Bool)
    (part1 part2 : List (List ℝ)) (c t : ℕ) (h : c < t) :
    ((t : ℝ) + 1) ≠ 0 ∧ (1 - partOfEpochs c t) ≠ 0 ∧
    (∀ v ∈ part1, max (tensorLen sums v) 1 ≠ 0) ∧
    (∀ v ∈ part2, max (tensorLen sums v) 1 ≠ 0) := by
  have hp1 := partOfEpochs_lt_one h
  exact ⟨by positivity, by linarith,
    fun v _ => ne_of_gt (clampedLen_pos sums v),
    fun v _ => ne_of_gt (clampedLen_pos sums v)⟩

theorem gradual_normalize_denominators_nonzero_witness :
    (1 - partOfEpochs 0 1) ≠ 0 :=
  (gradual_normalize_denominators_nonzero true [[1]] [[1]] 0 1 (by decide)).2.1

/-- C4 counterexample: the claim quantifies over all
`currentEpoch ≤ totalEpochs`, but at `currentEpoch = totalEpochs` the
second tensor is scaled by `partOfEpochs / (1 - partOfEpochs)` with
`1 - partOfEpochs = 0`: the float division by zero poisons it with NaN, so
no length bound holds; the model returns `none` there, not a pair of
tensors. -/
theorem gradual_normalize_fails_at_final_epoch :
    3 ≤ 3 ∧ gradualTrainingNormalize false [[1]] [[1]] 3 3 = none :=
  ⟨le_refl 3, by simp [gradualTrainingNormalize]⟩

/-- C4 (amended: `currentEpoch < totalEpochs`): for every pair of tensors
`part1`, `part2`, `gradualTrainingNormalize` returns a first tensor whose
per-position length (Euclidean norm, or L1 sum when
`reprsConcatNormSumsNotLengths` is set) is at most `1 - partOfEpochs` and
a second tensor whose per-position length is at most `partOfEpochs`, with
`partOfEpochs = (currentEpoch+1)/(totalEpochs+1)`. -/
theorem gradual_normalize_blend_bounds (sums : Bool) (part1 part2 : List (List ℝ))
    (c t : ℕ) (h : c < t) :
    gradualTrainingNormalize sums part1 part2 c t =
      some (part1Out sums part1 c t, part2Out sums part1 part2 c t) ∧
    (∀ v ∈ part1Out sums part1 c t, tensorLen sums v ≤ 1 - partOfEpochs c t) ∧
    (∀ v ∈ part2Out sums part1 part2 c t, tensorLen sums v ≤ partOfEpochs c t) := by
  have hp0 := partOfEpochs_nonneg c t
  have hp1 := partOfEpochs_lt_one h
  have hne : 1 - partOfEpochs c t ≠ 0 := by linarith
  refine ⟨by simp [gradualTrainingNormalize, Nat.ne_of_lt h], ?_, ?_⟩
  · intro v hv
    obtain ⟨w, _, rfl⟩ := List.mem_map.1 hv
    rw [map_div_map_mul, tensorLen_map_mul]
    have hm := clampedLen_pos sums w
    have habs : |(1 - partOfEpochs c t) / max (tensorLen sums w) 1| =
        (1 - partOfEpochs c t) / max (tensorLen sums w) 1 :=
      abs_of_nonneg (div_nonneg (by linarith) hm.le)
    rw [habs]
    have hrw : tensorLen sums w * ((1 - partOfEpochs c t) / max (tensorLen sums w) 1) =
        tensorLen sums w / max (tensorLen sums w) 1 * (1 - partOfEpochs c t) := by
      ring
    rw [hrw]
    exact mul_le_of_le_one_left (by linarith) (tensorLen_div_clamp_le_one sums w)
  · intro v hv
    obtain ⟨q, _, rfl⟩ := List.mem_map.1 hv
    rw [map_mul_div, tensorLen_map_mul]
    have hm1 := clampedLen_pos sums q.1
    have hm2 := clampedLen_pos sums q.2
    have ha0 : 0 ≤ tensorLen sums q.1 / max (tensorLen sums q.1) 1 :=
      div_nonneg (tensorLen_nonneg sums q.1) hm1.le
    have ha1 := tensorLen_div_clamp_le_one sums q.1
    have hb0 : 0 ≤ tensorLen sums q.2 / max (tensorLen sums q.2) 1 :=
      div_nonneg (tensorLen_nonneg sums q.2) hm2.le
    have hb1 := tensorLen_div_clamp_le_one sums q.2
    have hA : part1lengthsFinal sums q.1 c t * partOfEpochs c t /
        (1 - partOfEpochs c t) =
        tensorLen sums q.1 / max (tensorLen sums q.1) 1 * partOfEpochs c t := by
      unfold part1lengthsFinal
      field_simp
      ring
    rw [hA]
    have habs : |tensorLen sums q.1 / max (tensorLen sums q.1) 1 * partOfEpochs c t /
        max (tensorLen sums q.2) 1| =
        tensorLen sums q.1 / max (tensorLen sums q.1) 1 * partOfEpochs c t /
          max (tensorLen sums q.2) 1 :=
      abs_of_nonneg (div_nonneg (mul_nonneg ha0 hp0) hm2.le)
    rw [habs]
    have hrw : tensorLen sums q.2 *
        (tensorLen sums q.1 / max (tensorLen sums q.1) 1 * partOfEpochs c t /
          max (tensorLen sums q.2) 1) =
        tensorLen sums q.2 / max (tensorLen sums q.2) 1 *
          (tensorLen sums q.1 / max (tensorLen sums q.1) 1 * partOfEpochs c t) := by
      ring
    rw [hrw]
    nlinarith [mul_nonneg ha0 hp0, mul_nonneg hb0 (mul_nonneg ha0 hp0),
      mul_nonneg (sub_nonneg.2 hb1) (mul_nonneg ha0 hp0),
      mul_nonneg (sub_nonneg.2 ha1) hp0]

theorem gradual_normalize_blend_bounds_witness :
    gradualTrainingNormalize true [[1]] [[1]] 0 1 =
      some (part1Out true [[1]] 0 1, part2Out true [[1]] [[1]] 0 1) :=
  (gradual_normalize_blend_bounds true [[1]] [[1]] 0 1 (by decide)).1

/-! ## Prototype pushing (C8)

`pushToClosestForBatch` (src/cpc/utils/misc.py lines 209-228) and the
`pushDeg` branch of `CPCModel._FCMlikeBelong` (src/cpc/model.py lines
842-933).  Points and centers are exact, so the arithmetic is over `ℚ`. -/

/-- `torch.square(t).sum(-1)` of one feature vector. -/
def sqSum (v : List ℚ) : ℚ := (v.map (fun x => x * x)).sum

/-- `(vecs * centroids).sum(-1)` for one vector/centroid pair. -/
def dotSum (v c : List ℚ) : ℚ := (List.zipWith (fun a b => a * b) v c).sum

/-- One entry of `seDistancesToCentroids(vecs, centroids, doNorm=False)` /
`seDistancesToCentroidsCpy` (src/cpc/utils/misc.py lines 205-206,
src/cpc/model.py lines 314-315):
`square(centroids).sum(1) + square(vecs).sum(-1) - 2*(vecs*centroids).sum(-1)`. -/
def seDistPoint (c v : List ℚ) : ℚ := sqSum c + sqSum v - 2 * dotSum v c

/-- Minimum of a list (`0` for the empty list, which never occurs here). -/
def listMin : List ℚ → ℚ
  | [] => 0
  | x :: xs => xs.foldl min x

/-- `torch.argmin(-1)`: the index of the first minimal entry. -/
def argminFirst (l : List ℚ) : ℕ := l.indexOf (listMin l)

/-- `centers[closest]` for one point `v`: the center whose (squared)
distance to `v` is first-minimal.  The source takes `torch.sqrt` of the
exact, non-negative squared distances before the argmin; the square root
is monotone, so the minimizing index is unchanged and the argmin is taken
directly over the squared distances here. -/
def closestCenter (centers : List (List ℚ)) (v : List ℚ) : List ℚ :=
  centers.getD (argminFirst (centers.map (fun c => seDistPoint c v))) []

/-- The push of one point toward its closest center:
`res = deg * diffs + points` with `diffs = centers[closest] - points`
(src/cpc/utils/misc.py lines 224-228, src/cpc/model.py lines 930-933). -/
def pushPoint (centers : List (List ℚ)) (deg : ℚ) (v : List ℚ) : List ℚ :=
  List.zipWith (fun d x => deg * d + x)
    (List.zipWith (fun a b => a - b) (closestCenter centers v) v) v

/-- `pushToClosestForBatch(points, centers, deg)` with the normalization
flags `doNorm`, `doNormForPush` off (src/cpc/utils/misc.py lines 209-228). -/
def pushToClosestForBatch (points : List (List (List ℚ)))
    (centers : List (List ℚ)) (deg : ℚ) : List (List (List ℚ)) :=
  points.map (fun row => row.map (pushPoint centers deg))

/-- The `pushDeg` branch of `CPCModel._FCMlikeBelong` (src/cpc/model.py
lines 842-933) with `m`, `pushLossWeight`, `pushDegWithCenterDetach` and
`pushLossProtosMult` unset (so the normalization block lines 845-861 is
skipped): identical to the push above except that the squared distances
are first clamped with `torch.clamp(distsSq, min=0)` (line 872). -/
def FCMlikeBelongPushDeg (points : List (List (List ℚ)))
    (centers : List (List ℚ)) (pushDeg : ℚ) : List (List (List ℚ)) :=
  points.map (fun row => row.map (fun v =>
    List.zipWith (fun d x => pushDeg * d + x)
      (List.zipWith (fun a b => a - b)
        (centers.getD
          (argminFirst (centers.map (fun c => max (seDistPoint c v) 0))) []) v) v))

theorem sqSum_nonneg (v : List ℚ) : 0 ≤ sqSum v := by
  refine List.sum_nonneg ?_
  intro x hx
  obtain ⟨y, _, rfl⟩ := List.mem_map.1 hx
  exact mul_self_nonneg y

theorem two_dotSum_le (v : List ℚ) : ∀ c : List ℚ, 2 * dotSum v c ≤ sqSum c + sqSum v := by
  induction v with
  | nil =>
    intro c
    simp only [dotSum, List.zipWith_nil_left, List.sum_nil, mul_zero]
    have := sqSum_nonneg c
    have : sqSum ([] : List ℚ) = 0 := by simp [sqSum]
    simp only [this]
    linarith [sqSum_nonneg c]
  | cons x xs ih =>
    intro c
    cases c with
    | nil =>
      simp only [dotSum, List.zipWith_nil_right, List.sum_nil, mul_zero]
      have h0 : sqSum ([] : List ℚ) = 0 := by simp [sqSum]
      rw [h0]
      linarith [sqSum_nonneg (x :: xs)]
    | cons y ys =>
      have hd : dotSum (x :: xs) (y :: ys) = x * y + dotSum xs ys := by
        simp [dotSum]
      have hs1 : sqSum (y :: ys) = y * y + sqSum ys := by simp [sqSum]
      have hs2 : sqSum (x :: xs) = x * x + sqSum xs := by simp [sqSum]
      rw [hd, hs1, hs2]
      nlinarith [ih ys, sq_nonneg (x - y)]

theorem seDistPoint_nonneg (c v : List ℚ) : 0 ≤ seDistPoint c v := by
  unfold seDistPoint
  linarith [two_dotSum_le v c]

theorem foldl_min_le_init (xs : List ℚ) : ∀ a : ℚ, xs.foldl min a ≤ a := by
  induction xs with
  | nil => intro a; exact le_refl a
  | cons y ys ih => intro a; exact le_trans (ih (min a y)) (min_le_left a y)

theorem foldl_min_le_mem (xs : List ℚ) : ∀ (a x : ℚ), x ∈ xs → xs.foldl min a ≤ x := by
  induction xs with
  | nil => intro a x hx; cases hx
  | cons y ys ih =>
    intro a x hx
    rcases List.mem_cons.1 hx with h | h
    · subst h
      exact le_trans (foldl_min_le_init ys (min a x)) (min_le_right a x)
    · exact ih (min a y) x h

theorem foldl_min_mem (xs : List ℚ) : ∀ a : ℚ, xs.foldl min a = a ∨ xs.foldl min a ∈ xs := by
  induction xs with
  | nil => intro a; exact Or.inl rfl
  | cons y ys ih =>
    intro a
    rcases ih (min a y) with h | h
    · rcases min_choice a y with hm | hm
      · exact Or.inl (h.trans hm)
      · refine Or.inr ?_
        show List.foldl min (min a y) ys ∈ y :: ys
        rw [h, hm]
        exact List.mem_cons_self y ys
    · exact Or.inr (List.mem_cons_of_mem y h)

theorem listMin_le {l : List ℚ} {x : ℚ} (hx : x ∈ l) : listMin l ≤ x := by
  cases l with
  | nil => cases hx
  | cons y ys =>
    rcases List.mem_cons.1 hx with h | h
    · subst h; exact foldl_min_le_init ys x
    · exact foldl_min_le_mem ys y x h

theorem listMin_mem {l : List ℚ} (h : l ≠ []) : listMin l ∈ l := by
  cases l with
  | nil => exact absurd rfl h
  | cons y ys =>
    rcases foldl_min_mem ys y with h1 | h1
    · show ys.foldl min y ∈ y :: ys
      rw [h1]
      exact List.mem_cons_self y ys
    · exact List.mem_cons_of_mem y h1

theorem getD_argminFirst {l : List ℚ} (h : l ≠ []) :
    l.getD (argminFirst l) 0 = listMin l := by
  have hm := listMin_mem h
  have hlt : l.indexOf (listMin l) < l.length := List.indexOf_lt_length.2 hm
  rw [argminFirst, List.getD_eq_getElem _ _ hlt, List.getElem_indexOf hlt]

theorem getD_getD_map (f : List ℚ → List ℚ) (hf : f [] = [])
    (points : List (List (List ℚ))) (b n : ℕ) :
    ((points.map (fun row => row.map f)).getD b []).getD n [] =
      f ((points.getD b []).getD n []) := by
  have h1 := @List.getD_map (List (List ℚ)) (List (List ℚ)) points [] b
    (fun row => row.map f)
  simp only [List.map_nil] at h1
  have h2 := @List.getD_map (List ℚ) (List ℚ) (points.getD b []) [] n f
  rw [hf] at h2
  rw [h1, h2]

theorem zipWith_push_deg_zero (cc v : List ℚ) (h : cc.length = v.length) :
    List.zipWith (fun d x => (0 : ℚ) * d + x)
      (List.zipWith (fun a b => a - b) cc v) v = v := by
  induction cc generalizing v with
  | nil =>
    cases v with
    | nil => rfl
    | cons b bs => simp at h
  | cons a as ih =>
    cases v with
    | nil => simp at h
    | cons b bs =>
      have h' : as.length = bs.length := by simpa using h
      simp only [List.zipWith_cons_cons]
      rw [ih bs h']
      have hz : (0 : ℚ) * (a - b) + b = b := by ring
      rw [hz]

theorem zipWith_push_deg_one (cc v : List ℚ) (h : cc.length = v.length) :
    List.zipWith (fun d x => (1 : ℚ) * d + x)
      (List.zipWith (fun a b => a - b) cc v) v = cc := by
  induction cc generalizing v with
  | nil =>
    cases v with
    | nil => rfl
    | cons b bs => simp at h
  | cons a as ih =>
    cases v with
    | nil => simp at h
    | cons b bs =>
      have h' : as.length = bs.length := by simpa using h
      simp only [List.zipWith_cons_cons]
      rw [ih bs h']
      have hz : (1 : ℚ) * (a - b) + b = a := by ring
      rw [hz]

theorem closestCenter_mem {centers : List (List ℚ)} (hc : centers ≠ [])
    (v : List ℚ) : closestCenter centers v ∈ centers := by
  unfold closestCenter
  have hne : centers.map (fun c => seDistPoint c v) ≠ [] := by
    simpa using hc
  have hlt : argminFirst (centers.map (fun c => seDistPoint c v)) <
      (centers.map (fun c => seDistPoint c v)).length :=
    List.indexOf_lt_length.2 (listMin_mem hne)
  rw [List.length_map] at hlt
  rw [List.getD_eq_getElem _ _ hlt]
  exact List.getElem_mem hlt

theorem closestCenter_min {centers : List (List ℚ)} (hc : centers ≠ [])
    (v : List ℚ) :
    ∀ c ∈ centers, seDistPoint (closestCenter centers v) v ≤ seDistPoint c v := by
  intro c hcmem
  have hne : centers.map (fun c => seDistPoint c v) ≠ [] := by
    simpa using hc
  have hlt : argminFirst (centers.map (fun c => seDistPoint c v)) <
      (centers.map (fun c => seDistPoint c v)).length :=
    List.indexOf_lt_length.2 (listMin_mem hne)
  have hlt' : argminFirst (centers.map (fun c => seDistPoint c v)) < centers.length := by
    rw [List.length_map] at hlt
    exact hlt
  have h1 : seDistPoint (closestCenter centers v) v =
      (centers.map (fun c => seDistPoint c v)).getD
        (argminFirst (centers.map (fun c => seDistPoint c v))) 0 := by
    unfold closestCenter
    rw [List.getD_eq_getElem _ _ hlt', List.getD_eq_getElem _ _ hlt,
      List.getElem_map]
  rw [h1, getD_argminFirst hne]
  exact listMin_le (List.mem_map_of_mem _ hcmem)

/-- C8: for every batch of points and every non-empty list of centers, the
`pushDeg` variant of `_FCMlikeBelong` coincides with
`pushToClosestForBatch` without normalization flags, and the latter
returns, for every point `x`, the point `x + deg * (c - x)` where `c` is
the center at minimal (squared, equivalently Euclidean) distance from `x`;
in particular degree `0` returns the input unchanged and degree `1`
returns the nearest center itself. -/
theorem push_to_closest_correct (points : List (List (List ℚ)))
    (centers : List (List ℚ)) (deg : ℚ) (b n : ℕ) (hc : centers ≠ [])
    (hdim : ∀ c ∈ centers, c.length = ((points.getD b []).getD n []).length) :
    FCMlikeBelongPushDeg points centers deg =
      pushToClosestForBatch points centers deg ∧
    (∀ c ∈ centers,
      seDistPoint (closestCenter centers ((points.getD b []).getD n []))
          ((points.getD b []).getD n []) ≤
        seDistPoint c ((points.getD b []).getD n [])) ∧
    ((pushToClosestForBatch points centers deg).getD b []).getD n [] =
      List.zipWith (fun x d => x + deg * d) ((points.getD b []).getD n [])
        (List.zipWith (fun a b => a - b)
          (closestCenter centers ((points.getD b []).getD n []))
          ((points.getD b []).getD n [])) ∧
    ((pushToClosestForBatch points centers 0).getD b []).getD n [] =
      (points.getD b []).getD n [] ∧
    ((pushToClosestForBatch points centers 1).getD b []).getD n [] =
      closestCenter centers ((points.getD b []).getD n []) := by
  have hpushnil : ∀ d : ℚ, pushPoint centers d [] = [] := by
    intro d
    simp [pushPoint]
  refine ⟨?_, closestCenter_min hc _, ?_, ?_, ?_⟩
  · unfold FCMlikeBelongPushDeg pushToClosestForBatch
    congr 1
    funext row
    congr 1
    funext v
    have hmax : (fun c => max (seDistPoint c v) 0) = fun c => seDistPoint c v := by
      funext c
      exact max_eq_left (seDistPoint_nonneg c v)
    rw [hmax]
    rfl
  · rw [pushToClosestForBatch, getD_getD_map _ (hpushnil deg)]
    rw [pushPoint, List.zipWith_comm]
    congr 1
    funext x d
    ring
  · rw [pushToClosestForBatch, getD_getD_map _ (hpushnil 0)]
    rw [pushPoint]
    exact zipWith_push_deg_zero _ _
      (hdim _ (closestCenter_mem hc ((points.getD b []).getD n [])))
  · rw [pushToClosestForBatch, getD_getD_map _ (hpushnil 1)]
    rw [pushPoint]
    exact zipWith_push_deg_one _ _
      (hdim _ (closestCenter_mem hc ((points.getD b []).getD n [])))

theorem push_to_closest_correct_witness :
    ((pushToClosestForBatch [[[(0 : ℚ), 0]]] [[2, 0], [1, 0]] 0).getD 0 []).getD 0 [] =
      (([[[(0 : ℚ), 0]]].getD 0 []).getD 0 []) :=
  (push_to_closest_correct [[[(0 : ℚ), 0]]] [[2, 0], [1, 0]] (1/2) 0 0
    (by decide) (by decide)).2.2.2.1

/-! ## `ConcatenatedModel.forward` (C3)

src/cpc/model.py lines 1000-1016.  A sub-model is an abstract function
from batch data and label to `(cFeature, encodedData, label)`; feature
tensors are `B × T × D` lists over `ℚ`, batch data and labels abstract. -/

/-- `torch.cat(ts, dim=2)`: concatenation of `B × T × Dᵢ` tensors along
the feature dimension (dimension 2). -/
def cat2 : List (List (List (List ℚ))) → List (List (List ℚ))
  | [] => []
  | [u] => u
  | u :: ts => List.zipWith (List.zipWith (fun a b => a ++ b)) u (cat2 ts)

/-- The accumulation loop of `ConcatenatedModel.forward`
(src/cpc/model.py lines 1009-1014): every sub-model receives the original
`batchData`, while `label` is rebound at each iteration and so threads
through the sub-models; `cFeature` and `encodedData` are appended to
`outFeatures` and `outEncoded`. -/
def concatLoop {α β : Type} (batchData : α) :
    List (α → β → List (List (List ℚ)) × List (List (List ℚ)) × β) → β →
      List (List (List (List ℚ))) → List (List (List (List ℚ))) →
      List (List (List (List ℚ))) × List (List (List (List ℚ))) × β
  | [], label, outFeatures, outEncoded => (outFeatures, outEncoded, label)
  | m :: ms, label, outFeatures, outEncoded =>
    concatLoop batchData ms (m batchData label).2.2
      (outFeatures ++ [(m batchData label).1])
      (outEncoded ++ [(m batchData label).2.1])

/-- `ConcatenatedModel.forward` (src/cpc/model.py lines 1007-1016):
run the loop, then `torch.cat(outFeatures, dim=2)`,
`torch.cat(outEncoded, dim=2)` and the final label. -/
def concatenatedModelForward {α β : Type}
    (models : List (α → β → List (List (List ℚ)) × List (List (List ℚ)) × β))
    (batchData : α) (label : β) :
    List (List (List ℚ)) × List (List (List ℚ)) × β :=
  (cat2 (concatLoop batchData models label [] []).1,
   cat2 (concatLoop batchData models label [] []).2.1,
   (concatLoop batchData models label [] []).2.2)

/-- Specification of the sub-model outputs: the `(cFeature, encodedData,
label)` triples of the sub-models in model-list order, each sub-model
receiving the original batch data and the label produced by its
predecessor. -/
def threadOutputs {α β : Type} (batchData : α) :
    List (α → β → List (List (List ℚ)) × List (List (List ℚ)) × β) → β →
      List (List (List (List ℚ)) × List (List (List ℚ)) × β)
  | [], _ => []
  | m :: ms, label =>
    m batchData label :: threadOutputs batchData ms (m batchData label).2.2

/-- The label threaded through all sub-models in order. -/
def threadLabel {α β : Type} (batchData : α) :
    List (α → β → List (List (List ℚ)) × List (List (List ℚ)) × β) → β → β
  | [], label => label
  | m :: ms, label => threadLabel batchData ms (m batchData label).2.2

theorem concatLoop_eq {α β : Type} (batchData : α)
    (models : List (α → β → List (List (List ℚ)) × List (List (List ℚ)) × β)) :
    ∀ (label : β) (accF accE : List (List (List (List ℚ)))),
      concatLoop batchData models label accF accE =
        (accF ++ (threadOutputs batchData models label).map (fun r => r.1),
         accE ++ (threadOutputs batchData models label).map (fun r => r.2.1),
         threadLabel batchData models label) := by
  induction models with
  | nil =>
    intro label accF accE
    simp [concatLoop, threadOutputs, threadLabel]
  | cons m ms ih =>
    intro label accF accE
    simp only [concatLoop, threadOutputs, threadLabel, List.map_cons]
    rw [ih]
    simp [List.append_assoc]

theorem cat2_shape (B T : ℕ) :
    ∀ ts : List (List (List (List ℚ))), ts ≠ [] →
      (∀ u ∈ ts, u.length = B ∧ ∀ i < B, (u.getD i []).length = T) →
      (cat2 ts).length = B ∧ ∀ i < B, ((cat2 ts).getD i []).length = T := by
  intro ts
  induction ts with
  | nil => intro h; exact absurd rfl h
  | cons u ts ih =>
    intro _ hs
    cases ts with
    | nil => exact hs u (List.mem_cons_self u [])
    | cons v ts' =>
      have hu := hs u (List.mem_cons_self u _)
      have hrest := ih (List.cons_ne_nil v ts')
        (fun w hw => hs w (List.mem_cons_of_mem u hw))
      have hcat : cat2 (u :: v :: ts') =
          List.zipWith (List.zipWith (fun a b => a ++ b)) u (cat2 (v :: ts')) := rfl
      rw [hcat]
      have hlen : (List.zipWith (List.zipWith (fun a b => a ++ b)) u
          (cat2 (v :: ts'))).length = B := by
        rw [List.length_zipWith, hu.1, hrest.1, min_self]
      refine ⟨hlen, ?_⟩
      intro i hi
      have hi' : i < (List.zipWith (List.zipWith (fun a b => a ++ b)) u
          (cat2 (v :: ts'))).length := by rw [hlen]; exact hi
      rw [List.getD_eq_getElem _ _ hi', List.getElem_zipWith]
      rw [List.length_zipWith]
      have h1 : i < u.length := by rw [hu.1]; exact hi
      have h2 : i < (cat2 (v :: ts')).length := by rw [hrest.1]; exact hi
      have e1 : u[i] = u.getD i [] := (List.getD_eq_getElem _ _ h1).symm
      have e2 : (cat2 (v :: ts'))[i] = (cat2 (v :: ts')).getD i [] :=
        (List.getD_eq_getElem _ _ h2).symm
      rw [e1, e2, hu.2 i hi, hrest.2 i hi, min_self]

theorem cat2_getD_flatten (B T b t : ℕ) (hb : b < B) (ht : t < T) :
    ∀ ts : List (List (List (List ℚ))),
      (∀ u ∈ ts, u.length = B ∧ ∀ i < B, (u.getD i []).length = T) →
      ((cat2 ts).getD b []).getD t [] =
        (ts.map (fun u => (u.getD b []).getD t [])).flatten := by
  intro ts
  induction ts with
  | nil => simp [cat2]
  | cons u ts ih =>
    intro hs
    cases ts with
    | nil => simp [cat2]
    | cons v ts' =>
      have hu := hs u (List.mem_cons_self u _)
      have hsrest : ∀ w ∈ v :: ts', w.length = B ∧ ∀ i < B, (w.getD i []).length = T :=
        fun w hw => hs w (List.mem_cons_of_mem u hw)
      have hrest := cat2_shape B T (v :: ts') (List.cons_ne_nil v ts') hsrest
      have hcat : cat2 (u :: v :: ts') =
          List.zipWith (List.zipWith (fun a b => a ++ b)) u (cat2 (v :: ts')) := rfl
      rw [hcat]
      have hlen : (List.zipWith (List.zipWith (fun a b => a ++ b)) u
          (cat2 (v :: ts'))).length = B := by
        rw [List.length_zipWith, hu.1, hrest.1, min_self]
      have hb' : b < (List.zipWith (List.zipWith (fun a b => a ++ b)) u
          (cat2 (v :: ts'))).length := by rw [hlen]; exact hb
      rw [List.getD_eq_getElem _ _ hb', List.getElem_zipWith]
      have h1 : b < u.length := by rw [hu.1]; exact hb
      have h2 : b < (cat2 (v :: ts')).length := by rw [hrest.1]; exact hb
      have ht1 : t < (List.zipWith (fun a b => a ++ b) u[b]
          ((cat2 (v :: ts'))[b])).length := by
        rw [List.length_zipWith]
        have e1 : u[b] = u.getD b [] := (List.getD_eq_getElem _ _ h1).symm
        have e2 : (cat2 (v :: ts'))[b] = (cat2 (v :: ts')).getD b [] :=
          (List.getD_eq_getElem _ _ h2).symm
        rw [e1, e2, hu.2 b hb, hrest.2 b hb, min_self]
        exact ht
      rw [List.getD_eq_getElem _ _ ht1, List.getElem_zipWith]
      have ht2 : t < (u[b]).length := by
        have e1 : u[b] = u.getD b [] := (List.getD_eq_getElem _ _ h1).symm
        rw [e1, hu.2 b hb]
        exact ht
      have ht3 : t < ((cat2 (v :: ts'))[b]).length := by
        have e2 : (cat2 (v :: ts'))[b] = (cat2 (v :: ts')).getD b [] :=
          (List.getD_eq_getElem _ _ h2).symm
        rw [e2, hrest.2 b hb]
        exact ht
      have goal2 : ((cat2 (v :: ts')).getD b []).getD t [] =
          ((v :: ts').map (fun u => (u.getD b []).getD t [])).flatten := ih hsrest
      rw [List.map_cons, List.flatten_cons, ← goal2]
      congr 1
      · rw [List.getD_eq_getElem _ _ h1, List.getD_eq_getElem _ _ ht2]
      · rw [List.getD_eq_getElem _ _ h2, List.getD_eq_getElem _ _ ht3]

/-- C3: for every batch input and label, `ConcatenatedModel.forward`
returns the concatenation along the feature dimension (dim 2) of every
sub-model's context features and the concatenation along dim 2 of every
sub-model's encoded features, both in model-list order, and the label as
threaded through the sub-models.  The last two conjuncts state the dim-2
concatenation pointwise at any batch element `b` and frame `t`. -/
theorem concatenated_forward_correct {α β : Type}
    (models : List (α → β → List (List (List ℚ)) × List (List (List ℚ)) × β))
    (batchData : α) (label : β) (B T b t : ℕ)
    (hshape : ∀ r ∈ threadOutputs batchData models label,
      (r.1.length = B ∧ ∀ i < B, (r.1.getD i []).length = T) ∧
      (r.2.1.length = B ∧ ∀ i < B, (r.2.1.getD i []).length = T))
    (hb : b < B) (ht : t < T) :
    concatenatedModelForward models batchData label =
      (cat2 ((threadOutputs batchData models label).map (fun r => r.1)),
       cat2 ((threadOutputs batchData models label).map (fun r => r.2.1)),
       threadLabel batchData models label) ∧
    ((concatenatedModelForward models batchData label).1.getD b []).getD t [] =
      ((threadOutputs batchData models label).map
        (fun r => (r.1.getD b []).getD t [])).flatten ∧
    ((concatenatedModelForward models batchData label).2.1.getD b []).getD t [] =
      ((threadOutputs batchData models label).map
        (fun r => (r.2.1.getD b []).getD t [])).flatten := by
  have hmain : concatenatedModelForward models batchData label =
      (cat2 ((threadOutputs batchData models label).map (fun r => r.1)),
       cat2 ((threadOutputs batchData models label).map (fun r => r.2.1)),
       threadLabel batchData models label) := by
    unfold concatenatedModelForward
    rw [concatLoop_eq]
    simp
  refine ⟨hmain, ?_, ?_⟩
  · rw [hmain]
    have := cat2_getD_flatten B T b t hb ht
      ((threadOutputs batchData models label).map (fun r => r.1))
      (by
        intro u hu
        obtain ⟨r, hr, rfl⟩ := List.mem_map.1 hu
        exact (hshape r hr).1)
    rw [this, List.map_map]
    rfl
  · rw [hmain]
    have := cat2_getD_flatten B T b t hb ht
      ((threadOutputs batchData models label).map (fun r => r.2.1))
      (by
        intro u hu
        obtain ⟨r, hr, rfl⟩ := List.mem_map.1 hu
        exact (hshape r hr).2)
    rw [this, List.map_map]
    rfl

theorem concatenated_forward_correct_witness :
    concatenatedModelForward
        [fun (x : ℕ) (l : ℕ) => ([[[(x : ℚ)]]], [[[(2 : ℚ)]]], l + 1),
         fun (x : ℕ) (l : ℕ) => ([[[(l : ℚ)]]], [[[(3 : ℚ)]]], l * 2)] 5 1 =
      (cat2 ((threadOutputs 5
          [fun (x : ℕ) (l : ℕ) => ([[[(x : ℚ)]]], [[[(2 : ℚ)]]], l + 1),
           fun (x : ℕ) (l : ℕ) => ([[[(l : ℚ)]]], [[[(3 : ℚ)]]], l * 2)] 1).map
            (fun r => r.1)),
       cat2 ((threadOutputs 5
          [fun (x : ℕ) (l : ℕ) => ([[[(x : ℚ)]]], [[[(2 : ℚ)]]], l + 1),
           fun (x : ℕ) (l : ℕ) => ([[[(l : ℚ)]]], [[[(3 : ℚ)]]], l * 2)] 1).map
            (fun r => r.2.1)),
       threadLabel 5
          [fun (x : ℕ) (l : ℕ) => ([[[(x : ℚ)]]], [[[(2 : ℚ)]]], l + 1),
           fun (x : ℕ) (l : ℕ) => ([[[(l : ℚ)]]], [[[(3 : ℚ)]]], l * 2)] 1) :=
  (concatenated_forward_correct _ 5 1 1 1 0 0 (by decide) (by decide) (by decide)).1

/-! ## Recursive checkpoint loading (`loadModel`, C1/C2)

src/cpc/feature_loader.py lines 195-268, with `CPCModelNullspace`
(src/cpc/model.py lines 980-997).  Checkpoint paths are coded as naturals;
an environment provides `os.path.dirname` and the stored configuration
`getCheckpointData(os.path.dirname(path))[2]`.  Only the fields that
influence the returned models and dimension bookkeeping are modelled
(`updateConfig = None`, and `perGPUbatchSize` / `fcmSettings` /
`loadBestNotLast` / `loadSCM` do not affect the claims). -/

/-- The fields of a checkpoint's stored configuration (`locArgs`) used by
`loadModel`: the `load` list of checkpoint paths the run was started from,
and the recorded dimensions. -/
structure CkptArgs where
  load : Option (List ℕ)
  hiddenGar : ℤ
  hiddenEncoder : ℤ
  dim_inter : ℤ
deriving DecidableEq

/-- The checkpoint store: `dirname` is `os.path.dirname`, `argsOf d` the
configuration that `getCheckpointData(d)` returns for directory `d`. -/
structure CkptEnv where
  dirname : ℕ → ℕ
  argsOf : ℕ → CkptArgs

/-- The models `loadModel` builds: a leaf `CPCModel` constructed from the
checkpoint at `path`, a `CPCModelNullspace` wrapper recording the
`fake_nullspace = torch.zeros(dim_features, dim_nullspace)` dimensions
(src/cpc/feature_loader.py lines 240-243), or a `ConcatenatedModel`. -/
inductive LoadedModel where
  | cpc (path : ℕ)
  | nullspace (m : LoadedModel) (dimFeatures dimNullspace : ℤ)
  | concat (ms : List LoadedModel)

/-- `doLoad` (src/cpc/feature_loader.py lines 203-205):
`locArgs.load is not None and (len(locArgs.load) > 1 or
os.path.dirname(locArgs.load[0]) != os.path.dirname(path))`.
`locArgs.load[0]` of an empty stored list would raise `IndexError` in the
source; it is modelled by `headD 0`. -/
def doLoadOf (env : CkptEnv) (p : ℕ) : Bool :=
  match (env.argsOf (env.dirname p)).load with
  | none => false
  | some l => decide (1 < l.length) || decide (env.dirname (l.headD 0) ≠ env.dirname p)

/-- One iteration of the `for path in pathCheckpoints` loop
(src/cpc/feature_loader.py lines 199-256) on the state
`(models, hiddenGar, hiddenEncoder)`.  `sub` is the recursive call
`loadModel(locArgs.load, loadStateDict=False, ...)` of line 213 (note that
`load_nullspace` is not forwarded there, so it defaults to `False`).  When
`loadStateDict` and `load_nullspace` are both set, lines 239-245 wrap the
model in a `CPCModelNullspace` whose fake nullspace has the dimensions
`(hiddenGar, hiddenGar - dim_inter)` for the *currently accumulated*
`hiddenGar`, then reduce both accumulators by `dim_inter`; a fresh
(non-`doLoad`) checkpoint's own `hiddenGar`/`hiddenEncoder` are only added
afterwards (lines 252-254). -/
def loadStep (env : CkptEnv) (lsd lns : Bool)
    (sub : List ℕ → Option (LoadedModel × ℤ × ℤ))
    (st : List LoadedModel × ℤ × ℤ) (p : ℕ) :
    Option (List LoadedModel × ℤ × ℤ) :=
  let locArgs := env.argsOf (env.dirname p)
  let st1 : Option (LoadedModel × ℤ × ℤ) :=
    if doLoadOf env p then
      locArgs.load.bind (fun l =>
        (sub l).map (fun r => (r.1, st.2.1 + r.2.1, st.2.2 + r.2.2)))
    else
      some (LoadedModel.cpc p, st.2.1, st.2.2)
  st1.map (fun r =>
    let wrapped :=
      if lsd && lns then
        (LoadedModel.nullspace r.1 r.2.1 (r.2.1 - locArgs.dim_inter),
          r.2.1 - locArgs.dim_inter, r.2.2 - locArgs.dim_inter)
      else r
    let final :=
      if doLoadOf env p then (wrapped.2.1, wrapped.2.2)
      else (wrapped.2.1 + locArgs.hiddenGar, wrapped.2.2 + locArgs.hiddenEncoder)
    (st.1 ++ [wrapped.1], final.1, final.2))

/-- Lines 258-268: a single loaded model is returned as is, several are
wrapped in a `ConcatenatedModel` in input-path order. -/
def assembleModels (ms : List LoadedModel) : LoadedModel :=
  if ms.length = 1 then ms.headD (LoadedModel.concat []) else LoadedModel.concat ms

/-- `loadModel(pathCheckpoints, loadStateDict, load_nullspace)`
(src/cpc/feature_loader.py lines 195-268).  `fuel` bounds the recursion
depth through stored `load` lists (the source would not terminate on a
cyclic checkpoint store); every recursive call of line 213 disables
state-dict loading and leaves `load_nullspace` at its default `False`. -/
def loadModel (env : CkptEnv) : ℕ → List ℕ → Bool → Bool →
    Option (LoadedModel × ℤ × ℤ)
  | 0 => fun _ _ _ => none
  | fuel + 1 => fun paths lsd lns =>
    (paths.foldlM
        (loadStep env lsd lns (fun l => loadModel env fuel l false false))
        ([], 0, 0)).map
      (fun r => (assembleModels r.1, r.2.1, r.2.2))

/-- Sum, over all recursively loaded leaf sub-models reachable through the
stored `load` lists, of the `(hiddenGar, hiddenEncoder)` recorded in each
leaf checkpoint's configuration (one `sub`-recursion level). -/
def leafSumList (env : CkptEnv) (sub : List ℕ → Option (ℤ × ℤ)) :
    List ℕ → Option (ℤ × ℤ)
  | [] => some (0, 0)
  | p :: rest =>
    (if doLoadOf env p then
       (env.argsOf (env.dirname p)).load.bind sub
     else
       some ((env.argsOf (env.dirname p)).hiddenGar,
         (env.argsOf (env.dirname p)).hiddenEncoder)).bind
      (fun ge => (leafSumList env sub rest).map
        (fun gr => (ge.1 + gr.1, ge.2 + gr.2)))

/-- The leaf sums of the claim, with the recursion depth bounded like
`loadModel`'s. -/
def leafSum (env : CkptEnv) : ℕ → List ℕ → Option (ℤ × ℤ)
  | 0 => fun _ => none
  | fuel + 1 => fun paths => leafSumList env (leafSum env fuel) paths

/-- The total `dim_inter` of the (top-level) checkpoints of `paths`. -/
def dimInterSum (env : CkptEnv) (paths : List ℕ) : ℤ :=
  (paths.map (fun p => (env.argsOf (env.dirname p)).dim_inter)).sum

/-- Claim-side reading of C2 (a definition following the claim's words,
for comparison with the code): each *leaf* sub-model's contribution is
reduced by that leaf checkpoint's own `dim_inter`. -/
def leafSumReducedList (env : CkptEnv) (sub : List ℕ → Option (ℤ × ℤ)) :
    List ℕ → Option (ℤ × ℤ)
  | [] => some (0, 0)
  | p :: rest =>
    (if doLoadOf env p then
       (env.argsOf (env.dirname p)).load.bind sub
     else
       some ((env.argsOf (env.dirname p)).hiddenGar -
           (env.argsOf (env.dirname p)).dim_inter,
         (env.argsOf (env.dirname p)).hiddenEncoder -
           (env.argsOf (env.dirname p)).dim_inter)).bind
      (fun ge => (leafSumReducedList env sub rest).map
        (fun gr => (ge.1 + gr.1, ge.2 + gr.2)))

/-- Claim-side reading of C2, depth-bounded. -/
def leafSumReduced (env : CkptEnv) : ℕ → List ℕ → Option (ℤ × ℤ)
  | 0 => fun _ => none
  | fuel + 1 => fun paths => leafSumReducedList env (leafSumReduced env fuel) paths

/-- What the processing of one path guarantees for the model appended for
it: possibly a nullspace wrapper (exactly when both `loadStateDict` and
`load_nullspace` are on) around a model `m0` that is the result of the
recursive `loadModel` call with state-dict loading disabled when `doLoad`
holds, and a freshly constructed `CPCModel` otherwise. -/
def PathProp (env : CkptEnv) (fuel : ℕ) (lsd lns : Bool) (p : ℕ)
    (m : LoadedModel) : Prop :=
  ∃ m0 : LoadedModel,
    (if lsd && lns then
      ∃ a : ℤ, m = LoadedModel.nullspace m0 a
          (a - (env.argsOf (env.dirname p)).dim_inter)
     else m = m0) ∧
    (doLoadOf env p = true →
      ∃ l hgr her, (env.argsOf (env.dirname p)).load = some l ∧
        loadModel env fuel l false false = some (m0, hgr, her)) ∧
    (doLoadOf env p = false → m0 = LoadedModel.cpc p)

theorem loadStep_some (env : CkptEnv) (lsd lns : Bool)
    (sub : List ℕ → Option (LoadedModel × ℤ × ℤ))
    (st : List LoadedModel × ℤ × ℤ) (p : ℕ) (out : List LoadedModel × ℤ × ℤ)
    (h : loadStep env lsd lns sub st p = some out) :
    ∃ (m0 : LoadedModel) (a g e : ℤ),
      out.1 = st.1 ++ [if lsd && lns then
          LoadedModel.nullspace m0 a (a - (env.argsOf (env.dirname p)).dim_inter)
        else m0] ∧
      out.2.1 = st.2.1 + g -
        (if lsd && lns then (env.argsOf (env.dirname p)).dim_inter else 0) ∧
      out.2.2 = st.2.2 + e -
        (if lsd && lns then (env.argsOf (env.dirname p)).dim_inter else 0) ∧
      (doLoadOf env p = true →
        ∃ l, (env.argsOf (env.dirname p)).load = some l ∧ sub l = some (m0, g, e)) ∧
      (doLoadOf env p = false →
        m0 = LoadedModel.cpc p ∧ g = (env.argsOf (env.dirname p)).hiddenGar ∧
          e = (env.argsOf (env.dirname p)).hiddenEncoder) := by
  cases hdo : doLoadOf env p with
  | true =>
    rw [loadStep] at h
    simp only [hdo, if_true] at h
    cases hl : (env.argsOf (env.dirname p)).load with
    | none => rw [hl] at h; simp at h
    | some l =>
      rw [hl] at h
      simp only [Option.some_bind] at h
      cases hs : sub l with
      | none => rw [hs] at h; simp at h
      | some t =>
        rw [hs] at h
        simp only [Option.map_some', Option.some.injEq] at h
        cases hw : lsd && lns with
        | true =>
          simp only [hw, if_true] at h
          subst h
          exact ⟨t.1, st.2.1 + t.2.1, t.2.1, t.2.2, by simp [hw],
            by simp [hw]; try ring, by simp [hw]; try ring,
            fun _ => ⟨l, rfl, hs⟩, fun hf => by simp [hdo] at hf⟩
        | false =>
          simp only [hw, Bool.false_eq_true, if_false] at h
          subst h
          exact ⟨t.1, st.2.1 + t.2.1, t.2.1, t.2.2, by simp [hw],
            by simp [hw], by simp [hw],
            fun _ => ⟨l, rfl, hs⟩, fun hf => by simp [hdo] at hf⟩
  | false =>
    rw [loadStep] at h
    simp only [hdo, Bool.false_eq_true, if_false, Option.map_some',
      Option.some.injEq] at h
    cases hw : lsd && lns with
    | true =>
      simp only [hw, if_true] at h
      subst h
      exact ⟨LoadedModel.cpc p, st.2.1, (env.argsOf (env.dirname p)).hiddenGar,
        (env.argsOf (env.dirname p)).hiddenEncoder, by simp [hw],
        by simp [hw]; try ring, by simp [hw]; try ring,
        fun ht => by simp [hdo] at ht, fun _ => ⟨rfl, rfl, rfl⟩⟩
    | false =>
      simp only [hw, Bool.false_eq_true, if_false] at h
      subst h
      exact ⟨LoadedModel.cpc p, st.2.1, (env.argsOf (env.dirname p)).hiddenGar,
        (env.argsOf (env.dirname p)).hiddenEncoder, by simp [hw],
        by simp [hw], by simp [hw],
        fun ht => by simp [hdo] at ht, fun _ => ⟨rfl, rfl, rfl⟩⟩

theorem loadFold_spec (env : CkptEnv) :
    ∀ (fuel : ℕ) (lsd lns : Bool) (paths : List ℕ)
      (st out : List LoadedModel × ℤ × ℤ),
      paths.foldlM (loadStep env lsd lns
        (fun l => loadModel env fuel l false false)) st = some out →
      ∃ (new : List LoadedModel) (g e : ℤ),
        out.1 = st.1 ++ new ∧
        new.length = paths.length ∧
        leafSumList env (leafSum env fuel) paths = some (g, e) ∧
        out.2.1 = st.2.1 + g - (if lsd && lns then dimInterSum env paths else 0) ∧
        out.2.2 = st.2.2 + e - (if lsd && lns then dimInterSum env paths else 0) ∧
        ∀ i < paths.length,
          PathProp env fuel lsd lns (paths.getD i 0)
            (new.getD i (LoadedModel.concat [])) := by
  intro fuel
  induction fuel using Nat.strong_induction_on with
  | _ fuel ihf =>
    intro lsd lns paths
    induction paths with
    | nil =>
      intro st out h
      simp only [List.foldlM_nil, Option.pure_def, Option.some.injEq] at h
      subst h
      refine ⟨[], 0, 0, by simp, rfl, rfl, ?_, ?_, ?_⟩
      · simp [dimInterSum]
      · simp [dimInterSum]
      · intro i hi
        simp at hi
    | cons p rest ihp =>
      intro st out h
      rw [List.foldlM_cons] at h
      cases hstep : loadStep env lsd lns
          (fun l => loadModel env fuel l false false) st p with
      | none =>
        rw [hstep] at h
        simp at h
      | some st' =>
        rw [hstep] at h
        simp only [Option.bind_eq_bind, Option.some_bind] at h
        obtain ⟨m0, a, g0, e0, h1, h2, h3, hT, hF⟩ :=
          loadStep_some env lsd lns _ st p st' hstep
        obtain ⟨new, g, e, k1, k2, k3, k4, k5, k6⟩ := ihp st' out h
        refine ⟨(if lsd && lns then
            LoadedModel.nullspace m0 a (a - (env.argsOf (env.dirname p)).dim_inter)
          else m0) :: new, g0 + g, e0 + e, ?_, ?_, ?_, ?_, ?_, ?_⟩
        · rw [k1, h1]
          simp
        · simp [k2]
        · cases hdo : doLoadOf env p with
          | true =>
            obtain ⟨l, hl, hsub⟩ := hT hdo
            have hls : leafSum env fuel l = some (g0, e0) := by
              cases fuel with
              | zero =>
                rw [loadModel] at hsub
                simp at hsub
              | succ f =>
                rw [loadModel] at hsub
                simp only [] at hsub
                cases hfold : l.foldlM (loadStep env false false
                    (fun l' => loadModel env f l' false false)) ([], 0, 0) with
                | none =>
                  rw [hfold] at hsub
                  simp at hsub
                | some r =>
                  rw [hfold] at hsub
                  simp only [Option.map_some', Option.some.injEq,
                    Prod.mk.injEq] at hsub
                  obtain ⟨new2, g2, e2, m1, m2, m3, m4, m5, m6⟩ :=
                    ihf f (by omega) false false l ([], 0, 0) r hfold
                  have hg2 : r.2.1 = g2 := by simpa using m4
                  have he2 : r.2.2 = e2 := by simpa using m5
                  simp only [leafSum]
                  rw [m3, ← hsub.2.1, ← hsub.2.2, hg2, he2]
            simp only [leafSumList, hdo, if_true, hl, Option.some_bind, hls, k3,
              Option.map_some']
          | false =>
            obtain ⟨hm0, hg0eq, he0eq⟩ := hF hdo
            simp only [leafSumList, hdo, Bool.false_eq_true, if_false,
              Option.some_bind, k3, Option.map_some', hg0eq, he0eq]
        · rw [k4, h2]
          simp only [dimInterSum, List.map_cons, List.sum_cons]
          cases hw : lsd && lns <;> simp [hw] <;> ring
        · rw [k5, h3]
          simp only [dimInterSum, List.map_cons, List.sum_cons]
          cases hw : lsd && lns <;> simp [hw] <;> ring
        · intro i hi
          cases i with
          | zero =>
            simp only [List.getD_cons_zero]
            refine ⟨m0, ?_, ?_, ?_⟩
            · cases hw : lsd && lns with
              | true => simp only [hw, if_true]; exact ⟨a, rfl⟩
              | false => simp only [hw, Bool.false_eq_true, if_false]
            · intro hdo
              obtain ⟨l, hl, hsub⟩ := hT hdo
              exact ⟨l, g0, e0, hl, hsub⟩
            · exact fun hdo => (hF hdo).1
          | succ j =>
            have hj : j < rest.length := by simpa using hi
            simpa using k6 j hj

/-- C1: for every non-empty list of checkpoint paths, whenever a
checkpoint's stored configuration lists further checkpoints to load (more
than one path, or a single path whose directory differs from the
checkpoint's own — `doLoadOf`), `loadModel` recursively calls itself on
that stored list with state-dict loading disabled (and `load_nullspace`
left at its default); the overall call returns the single constructed
model when exactly one model results, and a `ConcatenatedModel` holding
the models in input-path order when more than one results. -/
theorem loadModel_recursive_structure (env : CkptEnv) (fuel : ℕ)
    (paths : List ℕ) (lsd lns : Bool) (m : LoadedModel) (hg he : ℤ)
    (hne : paths ≠ [])
    (h : loadModel env (fuel + 1) paths lsd lns = some (m, hg, he)) :
    ∃ ms : List LoadedModel,
      ms.length = paths.length ∧
      m = assembleModels ms ∧
      (paths.length = 1 → m = ms.headD (LoadedModel.concat [])) ∧
      (1 < paths.length → m = LoadedModel.concat ms) ∧
      ∀ i < paths.length,
        PathProp env fuel lsd lns (paths.getD i 0)
          (ms.getD i (LoadedModel.concat [])) := by
  rw [loadModel] at h
  simp only [] at h
  cases hfold : paths.foldlM (loadStep env lsd lns
      (fun l => loadModel env fuel l false false)) ([], 0, 0) with
  | none =>
    rw [hfold] at h
    simp at h
  | some r =>
    rw [hfold] at h
    simp only [Option.map_some', Option.some.injEq, Prod.mk.injEq] at h
    obtain ⟨new, g, e, k1, k2, k3, k4, k5, k6⟩ :=
      loadFold_spec env fuel lsd lns paths ([], 0, 0) r hfold
    have hr1 : r.1 = new := by simpa using k1
    refine ⟨new, k2, ?_, ?_, ?_, k6⟩
    · rw [← h.1, hr1]
    · intro h1
      rw [← h.1, hr1, assembleModels, k2, h1]
      simp
    · intro h1
      rw [← h.1, hr1, assembleModels, k2]
      have : paths.length ≠ 1 := by omega
      simp [this]

/-- A concrete checkpoint store: the checkpoint at path 10 was produced by
a run started from checkpoints 20 and 30 (`load = [20, 30]`,
`dim_inter = 3`); 20 and 30 are fresh checkpoints with recorded dimensions
`hiddenGar = hiddenEncoder = 5` resp. `7` and `dim_inter = 2` each.
`os.path.dirname` is modelled as the identity. -/
def ckptEnvA : CkptEnv where
  dirname := fun p => p
  argsOf := fun d =>
    if d = 10 then ⟨some [20, 30], 100, 100, 3⟩
    else if d = 20 then ⟨none, 5, 5, 2⟩
    else ⟨none, 7, 7, 2⟩

theorem loadModel_recursive_structure_witness :
    ∃ ms : List LoadedModel,
      ms.length = [10].length ∧
      LoadedModel.concat [LoadedModel.cpc 20, LoadedModel.cpc 30] =
        assembleModels ms ∧
      ([10].length = 1 →
        LoadedModel.concat [LoadedModel.cpc 20, LoadedModel.cpc 30] =
          ms.headD (LoadedModel.concat [])) ∧
      (1 < [10].length →
        LoadedModel.concat [LoadedModel.cpc 20, LoadedModel.cpc 30] =
          LoadedModel.concat ms) ∧
      ∀ i < [10].length,
        PathProp ckptEnvA 2 true false ([10].getD i 0)
          (ms.getD i (LoadedModel.concat [])) :=
  loadModel_recursive_structure ckptEnvA 2 [10] true false _ 12 12
    (by decide) rfl

/-- C2 counterexample: under the claim's reading, every leaf sub-model's
contribution is reduced by its own checkpoint's `dim_inter` when
`load_nullspace` is set.  For the store `ckptEnvA` (one top-level
checkpoint chaining two leaves), the code returns
`hiddenGar = (5 + 7) - 3 = 9` — the leaf sums reduced once by the
*top-level* checkpoint's `dim_inter` — while the claim's per-leaf
reduction gives `(5 - 2) + (7 - 2) = 8`.  The wrapper's recorded
projection maps dimension 12 to 9. -/
theorem loadModel_per_leaf_reduction_false :
    loadModel ckptEnvA 3 [10] true true =
      some (LoadedModel.nullspace
        (LoadedModel.concat [LoadedModel.cpc 20, LoadedModel.cpc 30]) 12 9,
        9, 9) ∧
    leafSumReduced ckptEnvA 3 [10] = some (8, 8) ∧
    (9 : ℤ) ≠ 8 :=
  ⟨rfl, rfl, by decide⟩

/-- C2 (amended): the `hiddenGar` and `hiddenEncoder` returned by
`loadModel` equal the sums, over all recursively loaded leaf sub-models,
of the `hiddenGar` and `hiddenEncoder` recorded in each leaf checkpoint's
configuration, reduced — when `load_nullspace` is set and state-dict
loading is enabled — once per *top-level* checkpoint path by that
checkpoint's `dim_inter`; in that case each top-level model is wrapped in
a `CPCModelNullspace` whose linear projection maps the `hiddenGar`
accumulated at wrap time (which is not in general the wrapped model's own
context dimension) to that value minus `dim_inter`. -/
theorem loadModel_dimension_bookkeeping (env : CkptEnv) (fuel : ℕ)
    (paths : List ℕ) (lsd lns : Bool) (m : LoadedModel) (hg he : ℤ)
    (h : loadModel env (fuel + 1) paths lsd lns = some (m, hg, he)) :
    ∃ g e, leafSum env (fuel + 1) paths = some (g, e) ∧
      hg = g - (if lsd && lns then dimInterSum env paths else 0) ∧
      he = e - (if lsd && lns then dimInterSum env paths else 0) ∧
      ∃ ms : List LoadedModel, ms.length = paths.length ∧
        m = assembleModels ms ∧
        ∀ i < paths.length,
          PathProp env fuel lsd lns (paths.getD i 0)
            (ms.getD i (LoadedModel.concat [])) := by
  rw [loadModel] at h
  simp only [] at h
  cases hfold : paths.foldlM (loadStep env lsd lns
      (fun l => loadModel env fuel l false false)) ([], 0, 0) with
  | none =>
    rw [hfold] at h
    simp at h
  | some r =>
    rw [hfold] at h
    simp only [Option.map_some', Option.some.injEq, Prod.mk.injEq] at h
    obtain ⟨new, g, e, k1, k2, k3, k4, k5, k6⟩ :=
      loadFold_spec env fuel lsd lns paths ([], 0, 0) r hfold
    have hr1 : r.1 = new := by simpa using k1
    refine ⟨g, e, ?_, ?_, ?_, new, k2, ?_, k6⟩
    · simpa only [leafSum] using k3
    · rw [← h.2.1]
      simpa using k4
    · rw [← h.2.2]
      simpa using k5
    · rw [← h.1, hr1]

theorem loadModel_dimension_bookkeeping_witness :
    ∃ g e, leafSum ckptEnvA 3 [10] = some (g, e) ∧
      (9 : ℤ) = g - dimInterSum ckptEnvA [10] ∧
      (9 : ℤ) = e - dimInterSum ckptEnvA [10] ∧
      ∃ ms : List LoadedModel, ms.length = [10].length ∧
        LoadedModel.nullspace
            (LoadedModel.concat [LoadedModel.cpc 20, LoadedModel.cpc 30]) 12 9 =
          assembleModels ms ∧
        ∀ i < [10].length,
          PathProp ckptEnvA 2 true true ([10].getD i 0)
            (ms.getD i (LoadedModel.concat [])) :=
  loadModel_dimension_bookkeeping ckptEnvA 2 [10] true true _ 9 9 rfl

/-! ## Compress matrices and minimum segment count of `jchBoundaryDetector`
(C7, C10)

src/cpc/utils/misc.py lines 92-124.  After the merging loop and the
`torch.unique` merge with the sequence-end indices, `idx` is a strictly
increasing list that starts with `0`, contains every multiple
`0, L, ..., B*L` and nothing beyond `B*L`.  Equivalently (the form used
as hypothesis below): `idx = 0 :: R.flatten` for per-sequence rows
`R = [r_0, ..., r_{B-1}]`, where `r_b` collects the indices in
`(b*L, (b+1)*L]`, strictly sorted and ending in `(b+1)*L`. -/

/-- `torch.nonzero((idx % L) == 0)` as positions
(src/cpc/utils/misc.py lines 92, 108). -/
def cutpointsOf (L : ℕ) (idx : List ℕ) : List ℕ :=
  (List.range idx.length).filter (fun q => decide (idx.getD q 0 % L = 0))

/-- `c[1:] - c[:-1]` (`torch.diff` / `cutpoints[1:] - cutpoints[:-1]`). -/
def diffsOf (c : List ℕ) : List ℕ :=
  List.zipWith (fun x y => x - y) c.tail c

/-- The cutpoint positions of a well-formed `idx = 0 :: R.flatten`:
`[0, |r_0|, |r_0|+|r_1|, ...]`. -/
def cutsSpec : List (List ℕ) → List ℕ
  | [] => [0]
  | r :: R => 0 :: (cutsSpec R).map (fun x => x + r.length)

/-- Well-formedness of row `b`: its values lie in `(b*L, (b+1)*L]`, it
ends in `(b+1)*L`, and it is strictly sorted. -/
def RowOK (L b : ℕ) (r : List ℕ) : Prop :=
  (∀ x ∈ r, b * L < x ∧ x ≤ (b + 1) * L) ∧
  r.getLast? = some ((b + 1) * L) ∧
  r.Sorted (· < ·)

instance (L b : ℕ) (r : List ℕ) : Decidable (RowOK L b r) := by
  unfold RowOK
  infer_instance

theorem cutpointsOf_nil (L : ℕ) : cutpointsOf L [] = [] := rfl

theorem cutpointsOf_cons (L x : ℕ) (t : List ℕ) :
    cutpointsOf L (x :: t) =
      (if x % L = 0 then [0] else []) ++ (cutpointsOf L t).map (· + 1) := by
  unfold cutpointsOf
  rw [List.length_cons, List.range_succ_eq_map, List.filter_cons]
  have h2 : (List.map Nat.succ (List.range t.length)).filter
      (fun q => decide ((x :: t).getD q 0 % L = 0)) =
      ((List.range t.length).filter
        (fun q => decide (t.getD q 0 % L = 0))).map (· + 1) := by
    rw [List.filter_map]
    have hc : ((fun q => decide ((x :: t).getD q 0 % L = 0)) ∘ Nat.succ) =
        (fun q => decide (t.getD q 0 % L = 0)) := by
      funext q
      simp [Function.comp, List.getD_cons_succ]
    rw [hc]
  rw [h2]
  by_cases hx : x % L = 0
  · simp [hx]
  · simp [hx]

theorem cutpointsOf_append (L : ℕ) (s t : List ℕ) :
    cutpointsOf L (s ++ t) =
      cutpointsOf L s ++ (cutpointsOf L t).map (· + s.length) := by
  induction s with
  | nil => simp [cutpointsOf_nil]
  | cons x s' ih =>
    rw [List.cons_append, cutpointsOf_cons, ih, cutpointsOf_cons]
    rw [List.map_append, List.map_map, List.append_assoc]
    congr 2
    all_goals
      try
        apply List.map_congr_left
        intro q _
        simp [Function.comp]
        omega

theorem cutpointsOf_row (L : ℕ) :
    ∀ (r : List ℕ) (m : ℕ), r.getLast? = some m → m % L = 0 →
      (∀ x ∈ r.dropLast, x % L ≠ 0) →
      cutpointsOf L r = [r.length - 1] := by
  intro r
  induction r with
  | nil => intro m hm _ _; simp at hm
  | cons x t ih =>
    intro m hm hmod hother
    cases t with
    | nil =>
      simp only [List.getLast?_singleton, Option.some.injEq] at hm
      subst hm
      rw [cutpointsOf_cons, cutpointsOf_nil]
      simp [hmod]
    | cons y t' =>
      have hx : x % L ≠ 0 := by
        apply hother
        simp [List.dropLast_cons₂]
      have hlast : (y :: t').getLast? = some m := by
        rw [List.getLast?_cons_cons] at hm
        exact hm
      have hother' : ∀ z ∈ (y :: t').dropLast, z % L ≠ 0 := by
        intro z hz
        apply hother
        rw [List.dropLast_cons₂]
        exact List.mem_cons_of_mem x hz
      rw [cutpointsOf_cons, ih m hlast hmod hother']
      simp [hx]

theorem cutsSpec_eq_cons (R : List (List ℕ)) :
    cutsSpec R = 0 :: (cutsSpec R).tail := by
  cases R <;> rfl

theorem cutpointsOf_flatten (L : ℕ) :
    ∀ R : List (List ℕ),
      (∀ r ∈ R, (∃ mm, r.getLast? = some mm ∧ mm % L = 0) ∧
        ∀ x ∈ r.dropLast, x % L ≠ 0) →
      (cutpointsOf L R.flatten).map (· + 1) = (cutsSpec R).tail := by
  intro R
  induction R with
  | nil => intro _; rfl
  | cons r R' ih =>
    intro hR
    obtain ⟨⟨mm, hmm, hmmod⟩, hint⟩ := hR r (List.mem_cons_self r R')
    have hrne : r ≠ [] := by
      intro hr
      rw [hr] at hmm
      simp at hmm
    have hrlen : 1 ≤ r.length := List.length_pos.2 hrne
    rw [List.flatten_cons, cutpointsOf_append,
      cutpointsOf_row L r mm hmm hmmod hint, List.map_append]
    have h1 : ([r.length - 1].map (· + 1)) = [r.length] := by
      simp
      omega
    rw [h1]
    have h2 : ((cutpointsOf L R'.flatten).map (· + r.length)).map (· + 1) =
        ((cutpointsOf L R'.flatten).map (· + 1)).map (· + r.length) := by
      rw [List.map_map, List.map_map]
      apply List.map_congr_left
      intro q _
      simp [Function.comp]
      try omega
    rw [h2, ih (fun w hw => hR w (List.mem_cons_of_mem r hw))]
    show r.length :: ((cutsSpec R').tail).map (· + r.length) =
      (cutsSpec (r :: R')).tail
    have h3 : cutsSpec (r :: R') = 0 :: (cutsSpec R').map (· + r.length) := rfl
    rw [h3]
    rw [cutsSpec_eq_cons R']
    simp

theorem cutpointsOf_structured (L : ℕ) (R : List (List ℕ))
    (hR : ∀ r ∈ R, (∃ mm, r.getLast? = some mm ∧ mm % L = 0) ∧
      ∀ x ∈ r.dropLast, x % L ≠ 0) :
    cutpointsOf L (0 :: R.flatten) = cutsSpec R := by
  rw [cutpointsOf_cons]
  have h0 : (0 : ℕ) % L = 0 := Nat.zero_mod L
  rw [cutpointsOf_flatten L R hR]
  simp only [h0, if_true]
  rw [cutsSpec_eq_cons R]
  rfl

theorem zipWith_sub_map_add (k : ℕ) :
    ∀ u v : List ℕ,
      List.zipWith (fun x y => x - y) (u.map (· + k)) (v.map (· + k)) =
        List.zipWith (fun x y => x - y) u v := by
  intro u
  induction u with
  | nil => intro v; simp
  | cons a u' ih =>
    intro v
    cases v with
    | nil => simp
    | cons b v' => simp [ih v', Nat.add_sub_add_right]

theorem diffsOf_map_add (k : ℕ) (c : List ℕ) :
    diffsOf (c.map (· + k)) = diffsOf c := by
  unfold diffsOf
  rw [← List.map_tail]
  exact zipWith_sub_map_add k c.tail c

theorem diffsOf_cons_cons (a x : ℕ) (X : List ℕ) :
    diffsOf (a :: x :: X) = (x - a) :: diffsOf (x :: X) := rfl

theorem diffsOf_cutsSpec : ∀ R : List (List ℕ),
    diffsOf (cutsSpec R) = R.map List.length := by
  intro R
  induction R with
  | nil => rfl
  | cons r R' ih =>
    have h3 : cutsSpec (r :: R') = 0 :: (cutsSpec R').map (· + r.length) := rfl
    rw [h3, cutsSpec_eq_cons R']
    show diffsOf (0 :: (0 :: (cutsSpec R').tail).map (· + r.length)) = _
    rw [List.map_cons]
    rw [diffsOf_cons_cons]
    have h4 : (0 + r.length) :: ((cutsSpec R').tail).map (· + r.length) =
        (cutsSpec R').map (· + r.length) := by
      rw [cutsSpec_eq_cons R']
      simp
    rw [h4, diffsOf_map_add, ih]
    simp

theorem mem_of_getLast?_eq {l : List ℕ} {m : ℕ} (h : l.getLast? = some m) :
    m ∈ l := by
  obtain ⟨hne, heq⟩ := List.mem_getLast?_eq_getLast
    (show m ∈ l.getLast? by rw [Option.mem_def]; exact h)
  rw [heq]
  exact List.getLast_mem hne

theorem sorted_dropLast_lt :
    ∀ (r : List ℕ) (m : ℕ), r.Sorted (· < ·) → r.getLast? = some m →
      ∀ x ∈ r.dropLast, x < m := by
  intro r
  induction r with
  | nil => intro m _ _ x hx; simp at hx
  | cons a t ih =>
    intro m hs hl x hx
    cases t with
    | nil => simp at hx
    | cons y t' =>
      rw [List.dropLast_cons₂] at hx
      rw [List.getLast?_cons_cons] at hl
      rcases List.mem_cons.1 hx with h | h
      · subst h
        have hm : m ∈ y :: t' := mem_of_getLast?_eq hl
        exact (List.pairwise_cons.1 hs).1 m hm
      · exact ih m (List.Pairwise.sublist (List.sublist_cons_self a (y :: t')) hs) hl x h

theorem mod_ne_zero_of_between {L b x : ℕ} (hL : 0 < L) (h1 : b * L < x)
    (h2 : x < (b + 1) * L) : x % L ≠ 0 := by
  intro h
  obtain ⟨k, hk⟩ := Nat.dvd_of_mod_eq_zero h
  subst hk
  have hk1 : b < k := by
    have : L * b < L * k := by
      rw [mul_comm L b]
      exact h1
    exact Nat.lt_of_mul_lt_mul_left this
  have hk2 : k < b + 1 := by
    have : L * k < L * (b + 1) := by
      rw [mul_comm L (b + 1)]
      exact h2
    exact Nat.lt_of_mul_lt_mul_left this
  omega

theorem RowOK.cut_facts {L b : ℕ} {r : List ℕ} (hL : 0 < L) (h : RowOK L b r) :
    (∃ mm, r.getLast? = some mm ∧ mm % L = 0) ∧ ∀ x ∈ r.dropLast, x % L ≠ 0 := by
  obtain ⟨hbnd, hlast, hsorted⟩ := h
  refine ⟨⟨(b + 1) * L, hlast, Nat.mul_mod_left _ _⟩, ?_⟩
  intro x hx
  have hxr : x ∈ r := (List.dropLast_sublist r).subset hx
  have hlt : x < (b + 1) * L := sorted_dropLast_lt r _ hsorted hlast x hx
  exact mod_ne_zero_of_between hL (hbnd x hxr).1 hlt

theorem rows_cut_facts {L B : ℕ} {R : List (List ℕ)} (hL : 0 < L)
    (hB : R.length = B) (hrows : ∀ j < B, RowOK L j (R.getD j [])) :
    ∀ r ∈ R, (∃ mm, r.getLast? = some mm ∧ mm % L = 0) ∧
      ∀ x ∈ r.dropLast, x % L ≠ 0 := by
  intro r hr
  obtain ⟨j, hj, hjr⟩ := List.mem_iff_getElem.1 hr
  have hOK : RowOK L j (R.getD j []) := hrows j (by omega)
  rw [List.getD_eq_getElem _ _ hj, hjr] at hOK
  exact hOK.cut_facts hL

theorem cutpointsOf_of_rows {L B : ℕ} {R : List (List ℕ)} (hL : 0 < L)
    (hB : R.length = B) (hrows : ∀ j < B, RowOK L j (R.getD j [])) :
    cutpointsOf L (0 :: R.flatten) = cutsSpec R :=
  cutpointsOf_structured L R (rows_cut_facts hL hB hrows)

theorem lens_of_rows {L B : ℕ} {R : List (List ℕ)} (hL : 0 < L)
    (hB : R.length = B) (hrows : ∀ j < B, RowOK L j (R.getD j [])) :
    diffsOf (cutpointsOf L (0 :: R.flatten)) = R.map List.length := by
  rw [cutpointsOf_of_rows hL hB hrows, diffsOf_cutsSpec]

/-- `torch.split(data, lens)`: split a flat list into consecutive groups
of the given lengths. -/
def splitLens (l : List ℕ) : List ℕ → List (List ℕ)
  | [] => []
  | n :: rest => l.take n :: splitLens (l.drop n) rest

/-- Maximum group length, as used by `pad_sequence` to pick the padded
(segment-count) dimension `M`. -/
def jchMaxLen (L : ℕ) (idx : List ℕ) : ℕ :=
  ((splitLens (idx.tail.map (fun x => x % L))
    (diffsOf (cutpointsOf L idx))).map List.length).foldr max 0

/-- The padded per-sequence boundary tensor `seq_idx` of
`jchBoundaryDetector` (src/cpc/utils/misc.py lines 111-114):
`pad_sequence(split(idx[1:] % L, cutpoint diffs))`, zeros (both the final
boundary of each sequence, `≡ 0 (mod L)`, and the padding) replaced by
`L`, and a zero column prepended. -/
def jchSeqIdx (L : ℕ) (idx : List ℕ) : List (List ℕ) :=
  let groups := splitLens (idx.tail.map (fun x => x % L))
    (diffsOf (cutpointsOf L idx))
  groups.map (fun g =>
    0 :: (g ++ List.replicate (jchMaxLen L idx - g.length) 0).map
      (fun v => if v = 0 then L else v))

/-- One entry of a compress matrix built from a boundary row `c`:
`(seq_idx[:, :-1] <= t) & (seq_idx[:, 1:] > t)`
(src/cpc/utils/misc.py lines 116-120), as `0/1`. -/
def coverEntry (c : List ℕ) (s t : ℕ) : ℕ :=
  if c.getD s 0 ≤ t ∧ t < c.getD (s + 1) 0 then 1 else 0

/-- Entry `(b, s, t)` of `compress_matrices`. -/
def jchCompressMatrix (L : ℕ) (idx : List ℕ) (b s t : ℕ) : ℕ :=
  coverEntry ((jchSeqIdx L idx).getD b []) s t

/-- `compressed_lens = cutpoints[1:] - cutpoints[:-1]`
(src/cpc/utils/misc.py line 93 resp. 109). -/
def jchCompressedLens (L : ℕ) (idx : List ℕ) : List ℕ :=
  diffsOf (cutpointsOf L idx)

theorem splitLens_flatten :
    ∀ RR : List (List ℕ), splitLens RR.flatten (RR.map List.length) = RR := by
  intro RR
  induction RR with
  | nil => rfl
  | cons r RR' ih =>
    rw [List.map_cons, List.flatten_cons, splitLens]
    rw [List.take_left, List.drop_left, ih]

theorem le_foldr_max (l : List ℕ) : ∀ x ∈ l, x ≤ l.foldr max 0 := by
  induction l with
  | nil => intro x hx; cases hx
  | cons a t ih =>
    intro x hx
    rcases List.mem_cons.1 hx with h | h
    · subst h
      exact le_max_left _ _
    · exact le_trans (ih x h) (le_max_right _ _)

theorem groups_of_rows {L B : ℕ} {R : List (List ℕ)} (hL : 0 < L)
    (hB : R.length = B) (hrows : ∀ j < B, RowOK L j (R.getD j [])) :
    splitLens ((0 :: R.flatten).tail.map (fun x => x % L))
      (diffsOf (cutpointsOf L (0 :: R.flatten))) =
      R.map (List.map (fun x => x % L)) := by
  rw [lens_of_rows hL hB hrows]
  show splitLens (R.flatten.map (fun x => x % L)) (R.map List.length) = _
  rw [List.map_flatten]
  have hlen : R.map List.length =
      (R.map (List.map (fun x => x % L))).map List.length := by
    rw [List.map_map]
    apply List.map_congr_left
    intro r _
    simp [Function.comp]
  rw [hlen, splitLens_flatten]

theorem jchMaxLen_of_rows {L B : ℕ} {R : List (List ℕ)} (hL : 0 < L)
    (hB : R.length = B) (hrows : ∀ j < B, RowOK L j (R.getD j [])) :
    jchMaxLen L (0 :: R.flatten) = (R.map List.length).foldr max 0 := by
  unfold jchMaxLen
  rw [groups_of_rows hL hB hrows]
  congr 1
  rw [List.map_map]
  apply List.map_congr_left
  intro r _
  simp [Function.comp]

theorem row_subst_map {L b : ℕ} {r : List ℕ} (hL : 0 < L)
    (hbnd : ∀ x ∈ r, b * L < x ∧ x ≤ (b + 1) * L) :
    (r.map (fun x => x % L)).map (fun v => if v = 0 then L else v) =
      r.map (fun x => x - b * L) := by
  rw [List.map_map]
  apply List.map_congr_left
  intro x hx
  obtain ⟨h1, h2⟩ := hbnd x hx
  simp only [Function.comp_apply]
  by_cases hm : x % L = 0
  · have hx2 : x = (b + 1) * L := by
      by_contra hne
      exact mod_ne_zero_of_between hL h1 (lt_of_le_of_ne h2 hne) hm
    subst hx2
    simp only [hm, if_true]
    rw [Nat.succ_mul]
    omega
  · have hxlt : x < (b + 1) * L := by
      by_contra hge
      have : x = (b + 1) * L := by omega
      rw [this, Nat.mul_mod_left] at hm
      exact hm rfl
    have hxd : x = (x - b * L) + b * L := by omega
    have hdlt : x - b * L < L := by
      rw [Nat.succ_mul] at hxlt
      omega
    simp only [hm, if_false]
    conv_lhs => rw [hxd]
    rw [Nat.add_mul_mod_self_right, Nat.mod_eq_of_lt hdlt]

theorem jchSeqIdx_row {L B b : ℕ} {R : List (List ℕ)} (hL : 0 < L)
    (hB : R.length = B) (hrows : ∀ j < B, RowOK L j (R.getD j []))
    (hb : b < B) :
    (jchSeqIdx L (0 :: R.flatten)).getD b [] =
      0 :: ((R.getD b []).map (fun x => x - b * L) ++
        List.replicate
          (jchMaxLen L (0 :: R.flatten) - (R.getD b []).length) L) := by
  unfold jchSeqIdx
  simp only []
  rw [groups_of_rows hL hB hrows]
  have hb1 : b < R.length := by omega
  have hb2 : b < (R.map (List.map (fun x => x % L))).length := by
    rw [List.length_map]; omega
  have hb3 : b < ((R.map (List.map (fun x => x % L))).map (fun g =>
      0 :: (g ++ List.replicate (jchMaxLen L (0 :: R.flatten) - g.length) 0).map
        (fun v => if v = 0 then L else v))).length := by
    rw [List.length_map]; omega
  rw [List.getD_eq_getElem _ _ hb3, List.getElem_map, List.getElem_map]
  have hrOK := hrows b hb
  rw [List.getD_eq_getElem _ _ hb1] at hrOK
  obtain ⟨hbnd, hlast, hsorted⟩ := hrOK
  congr 1
  rw [List.map_append, row_subst_map hL hbnd]
  congr 1
  · rw [List.getD_eq_getElem _ _ hb1]
  · rw [List.map_replicate]
    simp only [if_true]
    congr 2
    · rw [List.length_map, List.getD_eq_getElem _ _ hb1]

theorem coverEntry_zero_of_gt {c : List ℕ} {t : ℕ} (h : ∀ x ∈ c, t < x)
    (s : ℕ) : coverEntry c s t = 0 := by
  unfold coverEntry
  rw [if_neg]
  rintro ⟨h1, h2⟩
  by_cases hs : s < c.length
  · have hx := h _ (List.getElem_mem hs)
    rw [List.getD_eq_getElem _ _ hs] at h1
    omega
  · have hz : c.getD (s + 1) 0 = 0 := List.getD_eq_default _ _ (by omega)
    rw [hz] at h2
    omega

theorem coverEntry_cons_succ (x : ℕ) (c : List ℕ) (s t : ℕ) :
    coverEntry (x :: c) (s + 1) t = coverEntry c s t := by
  simp [coverEntry, List.getD_cons_succ]

theorem cover_count_one :
    ∀ (c : List ℕ) (t : ℕ), c.Chain' (· ≤ ·) →
      (∃ x, c.head? = some x ∧ x ≤ t) →
      (∃ y, c.getLast? = some y ∧ t < y) →
      ∑ s in Finset.range (c.length - 1), coverEntry c s t = 1 := by
  intro c
  induction c with
  | nil =>
    intro t _ hh _
    obtain ⟨x, hx, _⟩ := hh
    simp at hx
  | cons a c' ih =>
    intro t hch hh hl
    obtain ⟨x, hx, hxt⟩ := hh
    simp only [List.head?_cons, Option.some.injEq] at hx
    subst hx
    cases c' with
    | nil =>
      obtain ⟨y, hy, hyt⟩ := hl
      simp only [List.getLast?_singleton, Option.some.injEq] at hy
      subst hy
      omega
    | cons b c'' =>
      have hlen : (a :: b :: c'').length - 1 = c''.length + 1 := by
        simp
      rw [hlen, Finset.sum_range_succ']
      have hshift : ∀ s, coverEntry (a :: b :: c'') (s + 1) t =
          coverEntry (b :: c'') s t := fun s => coverEntry_cons_succ a _ s t
      have hzero : coverEntry (a :: b :: c'') 0 t =
          if a ≤ t ∧ t < b then 1 else 0 := rfl
      by_cases hty : t < b
      · have hsum0 : ∑ s in Finset.range c''.length,
            coverEntry (a :: b :: c'') (s + 1) t = 0 := by
          apply Finset.sum_eq_zero
          intro s _
          rw [hshift]
          apply coverEntry_zero_of_gt
          intro z hz
          have hpw : (b :: c'').Pairwise (· ≤ ·) :=
            List.chain'_iff_pairwise.1 hch.tail
          rcases List.mem_cons.1 hz with h | h
          · omega
          · have := (List.pairwise_cons.1 hpw).1 z h
            omega
        rw [hsum0, hzero]
        simp [hxt, hty]
      · have htail : ∑ s in Finset.range c''.length,
            coverEntry (a :: b :: c'') (s + 1) t = 1 := by
          have h1 : ∑ s in Finset.range c''.length,
              coverEntry (a :: b :: c'') (s + 1) t =
              ∑ s in Finset.range ((b :: c'').length - 1),
                coverEntry (b :: c'') s t := by
            apply Finset.sum_congr
            · simp
            · intro s _
              exact hshift s
          rw [h1]
          apply ih t hch.tail ⟨b, rfl, by omega⟩
          obtain ⟨y, hy, hyt⟩ := hl
          rw [List.getLast?_cons_cons] at hy
          exact ⟨y, hy, hyt⟩
        rw [htail, hzero]
        simp [hty]

theorem getD_last_of_getLast? :
    ∀ (l : List ℕ) (m : ℕ), l.getLast? = some m → l.getD (l.length - 1) 0 = m := by
  intro l
  induction l with
  | nil => intro m hm; simp at hm
  | cons x t ih =>
    intro m hm
    cases t with
    | nil =>
      simp only [List.getLast?_singleton, Option.some.injEq] at hm
      simp [hm]
    | cons y t' =>
      rw [List.getLast?_cons_cons] at hm
      have hlen : (x :: y :: t').length - 1 = (y :: t').length - 1 + 1 := by
        simp
      rw [hlen, List.getD_cons_succ]
      exact ih m hm

theorem getLast?_replicate_pos (L : ℕ) : ∀ k, 0 < k →
    (List.replicate k L).getLast? = some L := by
  intro k
  induction k with
  | zero => intro h; omega
  | succ k' ih =>
    intro _
    cases hk : k' with
    | zero => rfl
    | succ k'' =>
      rw [List.replicate_succ]
      have h2 : List.replicate (k'' + 1) L = L :: List.replicate k'' L := by
        rw [List.replicate_succ]
      rw [h2, List.getLast?_cons_cons, ← h2]
      rw [hk] at ih
      exact ih (by omega)

theorem pairwise_le_replicate (L k : ℕ) :
    (List.replicate k L).Pairwise (· ≤ ·) := by
  induction k with
  | zero => exact List.Pairwise.nil
  | succ k' ih =>
    rw [List.replicate_succ]
    rw [List.pairwise_cons]
    refine ⟨fun y hy => ?_, ih⟩
    rw [List.eq_of_mem_replicate hy]

theorem coverEntry_pad_zero (u : List ℕ) (k t L : ℕ)
    (hlast : u.getLast? = some L) (ht : t < L) :
    ∀ s, u.length ≤ s → coverEntry (0 :: (u ++ List.replicate k L)) s t = 0 := by
  intro s hs
  have hune : u ≠ [] := by
    intro h
    rw [h] at hlast
    simp at hlast
  have hulen : 1 ≤ u.length := List.length_pos.2 hune
  by_cases hsl : s < (0 :: (u ++ List.replicate k L)).length
  · have hcs : (0 :: (u ++ List.replicate k L)).getD s 0 = L := by
      obtain ⟨s', rfl⟩ : ∃ s', s = s' + 1 := ⟨s - 1, by omega⟩
      rw [List.getD_cons_succ]
      by_cases hsu : s' < u.length
      · have hseq : s' = u.length - 1 := by omega
        rw [List.getD_append _ _ _ _ hsu, hseq]
        exact getD_last_of_getLast? u L hlast
      · rw [List.getD_append_right _ _ _ _ (Nat.le_of_not_lt hsu)]
        have hrange : s' - u.length < k := by
          simp only [List.length_cons, List.length_append,
            List.length_replicate] at hsl
          omega
        rw [List.getD_eq_getElem _ _ (by simpa using hrange)]
        exact List.getElem_replicate _ _
    unfold coverEntry
    rw [if_neg]
    rintro ⟨h1, _⟩
    rw [hcs] at h1
    omega
  · unfold coverEntry
    rw [if_neg]
    rintro ⟨_, h2⟩
    have hz : (0 :: (u ++ List.replicate k L)).getD (s + 1) 0 = 0 :=
      List.getD_eq_default _ _ (by omega)
    rw [hz] at h2
    omega

theorem coverEntry_interval {c : List ℕ} {s t1 t2 t' : ℕ}
    (h1 : coverEntry c s t1 = 1) (h2 : coverEntry c s t2 = 1)
    (ha : t1 ≤ t') (hb : t' ≤ t2) : coverEntry c s t' = 1 := by
  unfold coverEntry at h1 h2 ⊢
  have c1 : c.getD s 0 ≤ t1 ∧ t1 < c.getD (s + 1) 0 := by
    by_contra hc
    rw [if_neg hc] at h1
    omega
  have c2 : c.getD s 0 ≤ t2 ∧ t2 < c.getD (s + 1) 0 := by
    by_contra hc
    rw [if_neg hc] at h2
    omega
  rw [if_pos ⟨by omega, by omega⟩]

/-- C7: under the structural facts established by the earlier phases of
`jchBoundaryDetector` (the boundary index list is `0 :: R.flatten` for
strictly sorted per-sequence rows `r_b ⊆ (b*L, (b+1)*L]` ending in
`(b+1)*L`), the compress matrices partition each sequence into contiguous
variable-length segments: `compressed_lens` lists the row lengths, each
frame column sums to one over the `M = jchMaxLen` segment rows (so exactly
one segment row is `1` at every frame), every row covers a contiguous
interval of frames, and the padding rows beyond the sequence's segment
count are all zero. -/
theorem jch_compress_partition (L B b t : ℕ) (R : List (List ℕ))
    (hL : 0 < L) (hB : R.length = B)
    (hrows : ∀ j < B, RowOK L j (R.getD j []))
    (hb : b < B) (ht : t < L) :
    jchCompressedLens L (0 :: R.flatten) = R.map List.length ∧
    (∑ s in Finset.range (jchMaxLen L (0 :: R.flatten)),
      jchCompressMatrix L (0 :: R.flatten) b s t) = 1 ∧
    (∀ s t1 t2 t', jchCompressMatrix L (0 :: R.flatten) b s t1 = 1 →
      jchCompressMatrix L (0 :: R.flatten) b s t2 = 1 → t1 ≤ t' → t' ≤ t2 →
      jchCompressMatrix L (0 :: R.flatten) b s t' = 1) ∧
    (∀ s, (R.getD b []).length ≤ s →
      jchCompressMatrix L (0 :: R.flatten) b s t = 0) := by
  have hb1 : b < R.length := by omega
  have hrOK : RowOK L b (R.getD b []) := hrows b hb
  obtain ⟨hbnd, hlast, hsorted⟩ := hrOK
  have hrow := jchSeqIdx_row hL hB hrows hb
  have hM := jchMaxLen_of_rows hL hB hrows
  have hnM : (R.getD b []).length ≤ jchMaxLen L (0 :: R.flatten) := by
    rw [hM]
    apply le_foldr_max
    have : (R.getD b []).length = (R.map List.length).getD b 0 := by
      rw [List.getD_eq_getElem _ _ hb1,
        List.getD_eq_getElem _ _ (by rw [List.length_map]; omega),
        List.getElem_map]
    rw [this, List.getD_eq_getElem _ _ (by rw [List.length_map]; omega)]
    exact List.getElem_mem _
  have hune : R.getD b [] ≠ [] := by
    intro h
    rw [h] at hlast
    simp at hlast
  have hLval : (b + 1) * L - b * L = L := by
    rw [Nat.succ_mul]
    omega
  have hu_last : ((R.getD b []).map (fun x => x - b * L)).getLast? = some L := by
    rw [List.getLast?_map, hlast]
    simp [hLval]
  have hu_bnd : ∀ y ∈ (R.getD b []).map (fun x => x - b * L), 0 < y ∧ y ≤ L := by
    intro y hy
    obtain ⟨x, hx, rfl⟩ := List.mem_map.1 hy
    obtain ⟨h1, h2⟩ := hbnd x hx
    rw [Nat.succ_mul] at h2
    omega
  have hu_lt : ((R.getD b []).map (fun x => x - b * L)).Pairwise (· < ·) := by
    rw [List.pairwise_map]
    apply List.Pairwise.imp_of_mem ?_ hsorted
    intro x y hx hy hxy
    have h1 := (hbnd x hx).1
    omega
  have hpw : (0 :: ((R.getD b []).map (fun x => x - b * L) ++
      List.replicate (jchMaxLen L (0 :: R.flatten) -
        (R.getD b []).length) L)).Pairwise (· ≤ ·) := by
    rw [List.pairwise_cons]
    refine ⟨fun y _ => Nat.zero_le y, ?_⟩
    rw [List.pairwise_append]
    refine ⟨hu_lt.imp (fun h => le_of_lt h), pairwise_le_replicate L _, ?_⟩
    intro a ha c hc
    rw [List.eq_of_mem_replicate hc]
    exact (hu_bnd a ha).2
  have hclast : (0 :: ((R.getD b []).map (fun x => x - b * L) ++
      List.replicate (jchMaxLen L (0 :: R.flatten) -
        (R.getD b []).length) L)).getLast? = some L := by
    show ([0] ++ ((R.getD b []).map (fun x => x - b * L) ++
      List.replicate _ L)).getLast? = some L
    rw [List.getLast?_append_of_ne_nil]
    · by_cases hk : 0 < jchMaxLen L (0 :: R.flatten) - (R.getD b []).length
      · rw [List.getLast?_append_of_ne_nil]
        · exact getLast?_replicate_pos L _ hk
        · simp only [ne_eq, List.replicate_eq_nil_iff]
          omega
      · have hk0 : jchMaxLen L (0 :: R.flatten) - (R.getD b []).length = 0 := by
          omega
        rw [hk0]
        simp only [List.replicate_zero, List.append_nil]
        exact hu_last
    · intro hcontra
      rcases List.append_eq_nil.1 hcontra with ⟨hmapnil, _⟩
      exact hune (by simpa using hmapnil)
  have hulen : ((R.getD b []).map (fun x => x - b * L)).length =
      (R.getD b []).length := List.length_map _ _
  have hclen : (0 :: ((R.getD b []).map (fun x => x - b * L) ++
      List.replicate (jchMaxLen L (0 :: R.flatten) -
        (R.getD b []).length) L)).length =
      jchMaxLen L (0 :: R.flatten) + 1 := by
    simp only [List.length_cons, List.length_append, List.length_replicate,
      hulen]
    omega
  refine ⟨lens_of_rows hL hB hrows, ?_, ?_, ?_⟩
  · have hsum : ∀ s, jchCompressMatrix L (0 :: R.flatten) b s t =
        coverEntry (0 :: ((R.getD b []).map (fun x => x - b * L) ++
          List.replicate (jchMaxLen L (0 :: R.flatten) -
            (R.getD b []).length) L)) s t := by
      intro s
      rw [jchCompressMatrix, hrow]
    rw [Finset.sum_congr rfl (fun s _ => hsum s)]
    have hcount := cover_count_one
      (0 :: ((R.getD b []).map (fun x => x - b * L) ++
        List.replicate (jchMaxLen L (0 :: R.flatten) -
          (R.getD b []).length) L)) t
      (List.chain'_iff_pairwise.2 hpw)
      ⟨0, rfl, Nat.zero_le t⟩
      ⟨L, hclast, ht⟩
    rw [hclen] at hcount
    simpa using hcount
  · intro s t1 t2 t' h1 h2 ha hbb
    rw [jchCompressMatrix] at h1 h2 ⊢
    exact coverEntry_interval h1 h2 ha hbb
  · intro s hs
    rw [jchCompressMatrix, hrow]
    exact coverEntry_pad_zero _ _ _ _ hu_last ht s (by omega)

theorem jch_compress_partition_witness :
    jchCompressedLens 3 (0 :: [[2, 3], [6]].flatten) =
      [[2, 3], [6]].map List.length ∧
    (∑ s in Finset.range (jchMaxLen 3 (0 :: [[2, 3], [6]].flatten)),
      jchCompressMatrix 3 (0 :: [[2, 3], [6]].flatten) 0 s 1) = 1 ∧
    (∀ s t1 t2 t', jchCompressMatrix 3 (0 :: [[2, 3], [6]].flatten) 0 s t1 = 1 →
      jchCompressMatrix 3 (0 :: [[2, 3], [6]].flatten) 0 s t2 = 1 → t1 ≤ t' →
      t' ≤ t2 → jchCompressMatrix 3 (0 :: [[2, 3], [6]].flatten) 0 s t' = 1) ∧
    (∀ s, ([[2, 3], [6]].getD 0 []).length ≤ s →
      jchCompressMatrix 3 (0 :: [[2, 3], [6]].flatten) 0 s 1 = 0) :=
  jch_compress_partition 3 2 0 1 [[2, 3], [6]] (by decide) (by decide)
    (by decide) (by decide) (by decide)

/-! ### The minimum-segment-count adjustment (C10)

src/cpc/utils/misc.py lines 94-109. -/

/-- `torch.diff(segmentsBoundaries).max(0)[1]`: the first index of the
maximal segment length. -/
def argmaxFirst (l : List ℕ) : ℕ := l.indexOf (l.foldr max 0)

/-- `torch.round((a + b) / 2).int()`: the midpoint of two integer
boundaries.  Dividing the integer tensor by the Python int `2` produces a
float, and `torch.round` rounds ties to the nearest even integer. -/
def roundMid (a b : ℕ) : ℕ :=
  if (a + b) % 2 = 0 then (a + b) / 2
  else if ((a + b) / 2) % 2 = 0 then (a + b) / 2 else (a + b) / 2 + 1

/-- Iteration `j` of the inner `for j in range(cuts2Add)` loop
(src/cpc/utils/misc.py lines 101-106): slice the current boundaries of
sequence `i` (`idx[cutpoints[i] : cutpoints[i+1] + 1 + j]`), find the
first largest segment, and insert the rounded midpoint of its endpoints at
`cutpoints[i] + largestSegmentIdx + 1`. -/
def jchInsertStep (cutsI cutsI1 : ℕ) (cur : List ℕ) (j : ℕ) : List ℕ :=
  let segB := (cur.drop cutsI).take (cutsI1 + 1 + j - cutsI)
  let k := argmaxFirst (diffsOf segB)
  let mid := roundMid (segB.getD k 0) (segB.getD (k + 1) 0)
  cur.take (cutsI + k + 1) ++ [mid] ++ cur.drop (cutsI + k + 1)

/-- The inner loop of lines 101-106. -/
def jchAddCuts (cutsI cutsI1 cuts2Add : ℕ) (idx : List ℕ) : List ℕ :=
  (List.range cuts2Add).foldl (jchInsertStep cutsI cutsI1) idx

/-- Lines 94-109: for every sequence whose segment count is below
`minLengthSeq`, repeatedly split its largest segment, shifting the later
cutpoint positions by `cuts2Add` after each sequence (line 107); the
final boundary list is returned (`compressed_lens` is then recomputed from
it on lines 108-109). -/
def jchMinLengthAdjust (L minLengthSeq : ℕ) (idx : List ℕ) : List ℕ :=
  let cuts := cutpointsOf L idx
  let lens := diffsOf cuts
  let tooShort := (List.range lens.length).filter
    (fun i => decide (lens.getD i 0 < minLengthSeq))
  (tooShort.foldl (fun st i =>
      (jchAddCuts (st.2.getD i 0) (st.2.getD (i + 1) 0)
        (minLengthSeq - lens.getD i 0) st.1,
       (List.range st.2.length).map (fun q =>
         if i + 1 ≤ q then st.2.getD q 0 + (minLengthSeq - lens.getD i 0)
         else st.2.getD q 0)))
    (idx, cuts)).1

/-- The recomputed `compressed_lens` (lines 108-109). -/
def jchAdjustedLens (L minLengthSeq : ℕ) (idx : List ℕ) : List ℕ :=
  diffsOf (cutpointsOf L (jchMinLengthAdjust L minLengthSeq idx))

/-- The row-level effect of one midpoint insertion on the boundary list
`iL :: r` of sequence `i`. -/
def rowStep (iL : ℕ) (r : List ℕ) : List ℕ :=
  let segB := iL :: r
  let k := argmaxFirst (diffsOf segB)
  let mid := roundMid (segB.getD k 0) (segB.getD (k + 1) 0)
  r.take k ++ mid :: r.drop k

/-- `n` midpoint insertions on row `i`. -/
def rowIter (iL : ℕ) : ℕ → List ℕ → List ℕ
  | 0, r => r
  | n + 1, r => rowStep iL (rowIter iL n r)

theorem roundMid_between {a b : ℕ} (h : a + 2 ≤ b) :
    a < roundMid a b ∧ roundMid a b < b := by
  unfold roundMid
  split_ifs <;> omega

theorem foldr_max_mem : ∀ l : List ℕ, l ≠ [] → l.foldr max 0 ∈ l := by
  intro l
  induction l with
  | nil => intro h; exact absurd rfl h
  | cons x t ih =>
    intro _
    cases t with
    | nil =>
      show max x 0 ∈ [x]
      rw [Nat.max_zero]
      exact List.mem_singleton.2 rfl
    | cons y t' =>
      rcases max_choice x ((y :: t').foldr max 0) with h | h
      · show max x ((y :: t').foldr max 0) ∈ x :: y :: t'
        rw [h]
        exact List.mem_cons_self _ _
      · show max x ((y :: t').foldr max 0) ∈ x :: y :: t'
        rw [h]
        exact List.mem_cons_of_mem x (ih (List.cons_ne_nil y t'))

theorem getD_argmaxFirst {l : List ℕ} (h : l ≠ []) :
    l.getD (argmaxFirst l) 0 = l.foldr max 0 := by
  have hm := foldr_max_mem l h
  have hlt : l.indexOf (l.foldr max 0) < l.length := List.indexOf_lt_length.2 hm
  rw [argmaxFirst, List.getD_eq_getElem _ _ hlt, List.getElem_indexOf hlt]

theorem argmaxFirst_lt_length {l : List ℕ} (h : l ≠ []) :
    argmaxFirst l < l.length :=
  List.indexOf_lt_length.2 (foldr_max_mem l h)

theorem diffsOf_length (c : List ℕ) : (diffsOf c).length = c.length - 1 := by
  unfold diffsOf
  rw [List.length_zipWith, List.length_tail]
  omega

theorem diffsOf_getD {c : List ℕ} {k : ℕ} (h : k + 1 < c.length) :
    (diffsOf c).getD k 0 = c.getD (k + 1) 0 - c.getD k 0 := by
  have hk : k < (diffsOf c).length := by
    rw [diffsOf_length]
    omega
  unfold diffsOf at hk ⊢
  rw [List.getD_eq_getElem _ _ hk, List.getElem_zipWith]
  have h1 : k < c.tail.length := by
    rw [List.length_tail]
    omega
  have h2 : k < c.length := by omega
  rw [List.getD_eq_getElem _ _ h, List.getD_eq_getElem _ _ h2]
  congr 1
  rw [List.getElem_tail]

theorem sum_le_length_of_all_le_one :
    ∀ l : List ℕ, (∀ x ∈ l, x ≤ 1) → l.sum ≤ l.length := by
  intro l
  induction l with
  | nil => intro _; simp
  | cons x t ih =>
    intro h
    rw [List.sum_cons, List.length_cons]
    have hx := h x (List.mem_cons_self x t)
    have ht := ih (fun z hz => h z (List.mem_cons_of_mem x hz))
    omega

theorem diffsOf_sum : ∀ c : List ℕ, c.Pairwise (· ≤ ·) →
    (diffsOf c).sum + c.head?.getD 0 = c.getLast?.getD 0 := by
  intro c
  induction c with
  | nil => intro _; rfl
  | cons x t ih =>
    intro hpw
    cases t with
    | nil => simp [diffsOf]
    | cons y t' =>
      rw [diffsOf_cons_cons, List.sum_cons]
      have ihy := ih (List.Pairwise.sublist (List.sublist_cons_self x (y :: t')) hpw)
      have hxy : x ≤ y := (List.pairwise_cons.1 hpw).1 y (List.mem_cons_self y t')
      have hylast : y ≤ ((y :: t').getLast?).getD 0 := by
        obtain ⟨m, hm⟩ : ∃ m, (y :: t').getLast? = some m := by
          cases hgl : (y :: t').getLast? with
          | none => simp at hgl
          | some m => exact ⟨m, rfl⟩
        rw [hm]
        simp only [Option.getD_some]
        have hmem := mem_of_getLast?_eq hm
        rcases List.mem_cons.1 hmem with h | h
        · omega
        · have hpw' : (y :: t').Pairwise (· ≤ ·) :=
            List.Pairwise.sublist (List.sublist_cons_self x (y :: t')) hpw
          exact (List.pairwise_cons.1 hpw').1 m h
      simp only [List.head?_cons, Option.getD_some] at ihy ⊢
      rw [List.getLast?_cons_cons]
      omega

theorem insert_mid_rowOK {L i k m : ℕ} {r : List ℕ} (hOK : RowOK L i r)
    (hk : k < r.length)
    (hm1 : (i * L :: r).getD k 0 < m)
    (hm2 : m < (i * L :: r).getD (k + 1) 0) :
    RowOK L i (r.take k ++ m :: r.drop k) ∧
    (r.take k ++ m :: r.drop k).length = r.length + 1 := by
  have hbnd := hOK.1
  have hlast := hOK.2.1
  have hsorted := hOK.2.2
  have hm2' : m < r.getD k 0 := by rwa [List.getD_cons_succ] at hm2
  have hkr : r.getD k 0 = r.get ⟨k, hk⟩ := by
    rw [List.getD_eq_getElem _ _ hk]
    rfl
  have hmub : m ≤ (i + 1) * L := by
    have hb := (hbnd _ (List.get_mem r k hk)).2
    rw [hkr] at hm2'
    omega
  have hmlb : i * L < m := by
    cases k with
    | zero => simpa using hm1
    | succ j =>
      rw [List.getD_cons_succ] at hm1
      have hj : j < r.length := by omega
      rw [List.getD_eq_getElem _ _ hj] at hm1
      have hb := (hbnd _ (List.getElem_mem hj)).1
      omega
  refine ⟨⟨?_, ?_, ?_⟩, ?_⟩
  · intro x hx
    rcases List.mem_append.1 hx with hx | hx
    · exact hbnd x ((List.take_sublist k r).subset hx)
    · rcases List.mem_cons.1 hx with rfl | hx
      · exact ⟨hmlb, hmub⟩
      · exact hbnd x ((List.drop_sublist k r).subset hx)
  · have hdne : r.drop k ≠ [] := by
      intro h
      rw [List.drop_eq_nil_iff] at h
      omega
    have h1 : (r.take k ++ m :: r.drop k) = (r.take k ++ [m]) ++ r.drop k := by
      simp
    rw [h1, List.getLast?_append_of_ne_nil _ hdne]
    have h2 : r.getLast? = (r.drop k).getLast? := by
      conv_lhs => rw [← List.take_append_drop k r]
      rw [List.getLast?_append_of_ne_nil _ hdne]
    rw [← h2]
    exact hlast
  · show (r.take k ++ m :: r.drop k).Pairwise (· < ·)
    rw [List.pairwise_append]
    refine ⟨List.Pairwise.sublist (List.take_sublist k r) hsorted, ?_, ?_⟩
    · rw [List.pairwise_cons]
      refine ⟨?_, List.Pairwise.sublist (List.drop_sublist k r) hsorted⟩
      intro y hy
      obtain ⟨j, hj, rfl⟩ := List.mem_iff_getElem.1 hy
      have hjlen : k + j < r.length := by
        rw [List.length_drop] at hj
        omega
      rw [List.getElem_drop _]
      have hky : r.get ⟨k, hk⟩ ≤ r.get ⟨k + j, hjlen⟩ := by
        rcases Nat.eq_zero_or_pos j with rfl | hjpos
        · exact le_refl _
        · exact le_of_lt (List.pairwise_iff_getElem.1 hsorted k (k + j) hk hjlen (by omega))
      rw [hkr] at hm2'
      exact lt_of_lt_of_le hm2' hky
    · intro x hx y hy
      obtain ⟨j1, hj1, rfl⟩ := List.mem_iff_getElem.1 hx
      have hj1' : j1 < k := by
        rw [List.length_take] at hj1
        omega
      have hj1r : j1 < r.length := by omega
      have hxr : (r.take k)[j1] = r[j1] := List.getElem_take _
      rcases List.mem_cons.1 hy with rfl | hy
      · rw [hxr]
        cases k with
        | zero => omega
        | succ t =>
          rw [List.getD_cons_succ] at hm1
          have ht : t < r.length := by omega
          rw [List.getD_eq_getElem _ _ ht] at hm1
          have hle : r[j1] ≤ r[t] := by
            rcases Nat.lt_or_ge j1 t with h | h
            · exact le_of_lt (List.pairwise_iff_getElem.1 hsorted j1 t hj1r ht h)
            · have hj1t : j1 = t := by omega
              subst hj1t
              exact le_refl _
          omega
      · obtain ⟨j2, hj2, rfl⟩ := List.mem_iff_getElem.1 hy
        have hj2' : k + j2 < r.length := by
          rw [List.length_drop] at hj2
          omega
        rw [hxr, List.getElem_drop _]
        exact List.pairwise_iff_getElem.1 hsorted j1 (k + j2) hj1r hj2' (by omega)
  · rw [List.length_append, List.length_cons, List.length_take, List.length_drop]
    omega

theorem rowStep_spec {L i : ℕ} {r : List ℕ} (hOK : RowOK L i r)
    (hlen : r.length < L) :
    RowOK L i (rowStep (i * L) r) ∧
    (rowStep (i * L) r).length = r.length + 1 ∧
    argmaxFirst (diffsOf (i * L :: r)) < r.length := by
  have hbnd := hOK.1
  have hlast := hOK.2.1
  have hsorted := hOK.2.2
  have hrne : r ≠ [] := by
    intro h
    rw [h] at hlast
    simp at hlast
  have hspw : (i * L :: r).Pairwise (· < ·) := by
    rw [List.pairwise_cons]
    exact ⟨fun y hy => (hbnd y hy).1, hsorted⟩
  have hspw_le : (i * L :: r).Pairwise (· ≤ ·) := hspw.imp le_of_lt
  have hdlen : (diffsOf (i * L :: r)).length = r.length := by
    rw [diffsOf_length]
    simp
  have hdne : diffsOf (i * L :: r) ≠ [] := by
    intro h
    have h0 := congrArg List.length h
    rw [hdlen] at h0
    simp at h0
    exact hrne h0
  have hslast : (i * L :: r).getLast? = some ((i + 1) * L) := by
    show ([i * L] ++ r).getLast? = some ((i + 1) * L)
    rw [List.getLast?_append_of_ne_nil _ hrne]
    exact hlast
  have hsum : (diffsOf (i * L :: r)).sum = L := by
    have h1 := diffsOf_sum (i * L :: r) hspw_le
    rw [hslast] at h1
    simp only [List.head?_cons, Option.getD_some] at h1
    have hmul : (i + 1) * L = i * L + L := by ring
    omega
  have hk : argmaxFirst (diffsOf (i * L :: r)) < r.length := by
    have h := argmaxFirst_lt_length hdne
    rw [hdlen] at h
    exact h
  have hmax2 : 2 ≤ (diffsOf (i * L :: r)).foldr max 0 := by
    by_contra hlt
    have hall : ∀ x ∈ diffsOf (i * L :: r), x ≤ 1 := fun x hx => by
      have := le_foldr_max _ x hx
      omega
    have hle := sum_le_length_of_all_le_one _ hall
    rw [hdlen, hsum] at hle
    omega
  have hgapD : (diffsOf (i * L :: r)).getD (argmaxFirst (diffsOf (i * L :: r))) 0 =
      (i * L :: r).getD (argmaxFirst (diffsOf (i * L :: r)) + 1) 0 -
      (i * L :: r).getD (argmaxFirst (diffsOf (i * L :: r))) 0 :=
    diffsOf_getD (by simp; omega)
  have hgap2 : 2 ≤ (i * L :: r).getD (argmaxFirst (diffsOf (i * L :: r)) + 1) 0 -
      (i * L :: r).getD (argmaxFirst (diffsOf (i * L :: r))) 0 := by
    rw [← hgapD, getD_argmaxFirst hdne]
    exact hmax2
  have hab_lt : (i * L :: r).getD (argmaxFirst (diffsOf (i * L :: r))) 0 <
      (i * L :: r).getD (argmaxFirst (diffsOf (i * L :: r)) + 1) 0 := by
    have h1 : argmaxFirst (diffsOf (i * L :: r)) < (i * L :: r).length := by
      simp
      omega
    have h2 : argmaxFirst (diffsOf (i * L :: r)) + 1 < (i * L :: r).length := by
      simp
      omega
    rw [List.getD_eq_getElem _ _ h1, List.getD_eq_getElem _ _ h2]
    exact List.pairwise_iff_getElem.1 hspw _ _ h1 h2 (by omega)
  have hab : (i * L :: r).getD (argmaxFirst (diffsOf (i * L :: r))) 0 + 2 ≤
      (i * L :: r).getD (argmaxFirst (diffsOf (i * L :: r)) + 1) 0 := by omega
  obtain ⟨hmid1, hmid2⟩ := roundMid_between hab
  have hrw : rowStep (i * L) r =
      r.take (argmaxFirst (diffsOf (i * L :: r))) ++
        roundMid ((i * L :: r).getD (argmaxFirst (diffsOf (i * L :: r))) 0)
          ((i * L :: r).getD (argmaxFirst (diffsOf (i * L :: r)) + 1) 0) ::
        r.drop (argmaxFirst (diffsOf (i * L :: r))) := rfl
  obtain ⟨h1, h2⟩ := insert_mid_rowOK hOK hk hmid1 hmid2
  rw [hrw]
  exact ⟨h1, h2, hk⟩

def prefLens (R : List (List ℕ)) (q : ℕ) : ℕ :=
  ((R.take q).map List.length).sum

theorem prefLens_zero (R : List (List ℕ)) : prefLens R 0 = 0 := rfl

theorem prefLens_cons (r : List ℕ) (Rt : List (List ℕ)) (q : ℕ) :
    prefLens (r :: Rt) (q + 1) = r.length + prefLens Rt q := by
  unfold prefLens
  rw [List.take_succ_cons, List.map_cons, List.sum_cons]

theorem cutsSpec_length : ∀ R : List (List ℕ), (cutsSpec R).length = R.length + 1 := by
  intro R
  induction R with
  | nil => rfl
  | cons r Rt ih =>
    show (0 :: (cutsSpec Rt).map (fun x => x + r.length)).length = Rt.length + 1 + 1
    rw [List.length_cons, List.length_map, ih]

theorem cutsSpec_getD : ∀ (R : List (List ℕ)) (q : ℕ), q ≤ R.length →
    (cutsSpec R).getD q 0 = prefLens R q := by
  intro R
  induction R with
  | nil =>
    intro q hq
    rw [List.length_nil] at hq
    have hq0 : q = 0 := by omega
    subst hq0
    rfl
  | cons r Rt ih =>
    intro q hq
    cases q with
    | zero => rfl
    | succ q' =>
      show ((cutsSpec Rt).map (fun x => x + r.length)).getD q' 0 = prefLens (r :: Rt) (q' + 1)
      have hq' : q' ≤ Rt.length := by
        rw [List.length_cons] at hq
        omega
      have hlt : q' < ((cutsSpec Rt).map (fun x => x + r.length)).length := by
        rw [List.length_map, cutsSpec_length]
        omega
      have hlt2 : q' < (cutsSpec Rt).length := by
        rw [cutsSpec_length]
        omega
      rw [List.getD_eq_getElem _ _ hlt, List.getElem_map,
        ← List.getD_eq_getElem _ 0 hlt2, ih q' hq', prefLens_cons]
      omega

theorem prefLens_succ {R : List (List ℕ)} {q : ℕ} (h : q < R.length) :
    prefLens R (q + 1) = prefLens R q + (R.getD q []).length := by
  unfold prefLens
  rw [List.take_succ, List.map_append, List.sum_append]
  rw [List.getElem?_eq_getElem h]
  rw [List.getD_eq_getElem _ _ h]
  simp

theorem prefLens_set_le : ∀ (R : List (List ℕ)) (i q : ℕ) (x : List ℕ), q ≤ i →
    prefLens (R.set i x) q = prefLens R q := by
  intro R
  induction R with
  | nil => intro i q x _; rfl
  | cons r Rt ih =>
    intro i q x h
    cases q with
    | zero => rfl
    | succ q' =>
      cases i with
      | zero => omega
      | succ i' =>
        rw [List.set_cons_succ, prefLens_cons, prefLens_cons, ih i' q' x (by omega)]

theorem prefLens_set_gt : ∀ (R : List (List ℕ)) (i q : ℕ) (x : List ℕ),
    i < R.length → i < q →
    prefLens (R.set i x) q + (R.getD i []).length = prefLens R q + x.length := by
  intro R
  induction R with
  | nil => intro i q x h _; simp at h
  | cons r Rt ih =>
    intro i q x hi hq
    cases q with
    | zero => omega
    | succ q' =>
      cases i with
      | zero =>
        rw [List.set_cons_zero, prefLens_cons, prefLens_cons, List.getD_cons_zero]
        omega
      | succ i' =>
        rw [List.set_cons_succ, prefLens_cons, prefLens_cons, List.getD_cons_succ]
        have hi' : i' < Rt.length := by
          rw [List.length_cons] at hi
          omega
        have := ih i' q' x hi' (by omega)
        omega

theorem set_getD_self {α : Type} (d : α) : ∀ (l : List α) (i : ℕ), i < l.length →
    l.set i (l.getD i d) = l := by
  intro l
  induction l with
  | nil => intro i h; simp at h
  | cons a t ih =>
    intro i h
    cases i with
    | zero => rw [List.getD_cons_zero, List.set_cons_zero]
    | succ j =>
      rw [List.getD_cons_succ, List.set_cons_succ, ih j (by rw [List.length_cons] at h; omega)]

theorem getD_set_ne {α : Type} (d : α) (l : List α) {i b : ℕ} (x : α) (h : b ≠ i) :
    (l.set i x).getD b d = l.getD b d := by
  rw [List.getD_eq_getElem?_getD, List.getD_eq_getElem?_getD,
    List.getElem?_set_ne (by omega)]

theorem getD_set_self {α : Type} (d : α) (l : List α) {i : ℕ} (x : α) (h : i < l.length) :
    (l.set i x).getD i d = x := by
  rw [List.getD_eq_getElem?_getD, List.getElem?_set_self (by omega)]
  rfl

theorem getD_map_range {n q d : ℕ} (f : ℕ → ℕ) (h : q < n) :
    ((List.range n).map f).getD q d = f q := by
  have hlen : q < ((List.range n).map f).length := by
    rw [List.length_map, List.length_range]
    exact h
  have hlen2 : q < (List.range n).length := by
    rw [List.length_range]
    exact h
  rw [List.getD_eq_getElem _ _ hlen, List.getElem_map, List.getElem_range]

theorem rowIter_spec {L i : ℕ} {r : List ℕ} (hOK : RowOK L i r) :
    ∀ n, r.length + n ≤ L →
    RowOK L i (rowIter (i * L) n r) ∧ (rowIter (i * L) n r).length = r.length + n := by
  intro n
  induction n with
  | zero => intro _; exact ⟨hOK, rfl⟩
  | succ m ih =>
    intro h
    obtain ⟨h1, h2⟩ := ih (by omega)
    have h3 := rowStep_spec h1 (by omega)
    refine ⟨h3.1, ?_⟩
    rw [show rowIter (i * L) (m + 1) r = rowStep (i * L) (rowIter (i * L) m r) from rfl,
      h3.2.1, h2]
    omega

theorem jchInsertStep_structured (P r C : List ℕ) (a n j : ℕ)
    (hn : r.length = n + j)
    (hk : argmaxFirst (diffsOf (a :: r)) ≤ r.length) :
    jchInsertStep P.length (P.length + n) (P ++ a :: (r ++ C)) j =
      P ++ a :: (rowStep a r ++ C) := by
  have hsegB : (((P ++ a :: (r ++ C)).drop P.length).take (P.length + n + 1 + j - P.length)) = a :: r := by
    rw [List.drop_left]
    have harith : P.length + n + 1 + j - P.length = n + j + 1 := by omega
    rw [harith, List.take_succ_cons, ← hn, List.take_left]
  simp only [jchInsertStep, rowStep]
  rw [hsegB]
  have htake : (P ++ a :: (r ++ C)).take (P.length + argmaxFirst (diffsOf (a :: r)) + 1) =
      P ++ a :: r.take (argmaxFirst (diffsOf (a :: r))) := by
    rw [show P.length + argmaxFirst (diffsOf (a :: r)) + 1 =
      P.length + (argmaxFirst (diffsOf (a :: r)) + 1) from rfl]
    rw [List.take_append, List.take_succ_cons, List.take_append_of_le_length hk]
  have hdrop : (P ++ a :: (r ++ C)).drop (P.length + argmaxFirst (diffsOf (a :: r)) + 1) =
      r.drop (argmaxFirst (diffsOf (a :: r))) ++ C := by
    rw [show P.length + argmaxFirst (diffsOf (a :: r)) + 1 =
      P.length + (argmaxFirst (diffsOf (a :: r)) + 1) from rfl]
    rw [List.drop_append, List.drop_succ_cons, List.drop_append_of_le_length hk]
  rw [htake, hdrop]
  simp

theorem jchAddCuts_row {L i : ℕ} {r : List ℕ} (hOK : RowOK L i r) :
    ∀ (m : ℕ) (P C : List ℕ), r.length + m ≤ L →
    jchAddCuts P.length (P.length + r.length) m (P ++ i * L :: (r ++ C)) =
      P ++ i * L :: (rowIter (i * L) m r ++ C) := by
  intro m
  induction m with
  | zero => intro P C _; rfl
  | succ m ih =>
    intro P C h
    have hstep : jchAddCuts P.length (P.length + r.length) (m + 1) (P ++ i * L :: (r ++ C)) =
        jchInsertStep P.length (P.length + r.length)
          (jchAddCuts P.length (P.length + r.length) m (P ++ i * L :: (r ++ C))) m := by
      unfold jchAddCuts
      rw [List.range_succ m, List.foldl_append]
      rfl
    rw [hstep, ih P C (by omega)]
    obtain ⟨hOK', hlen'⟩ := rowIter_spec hOK m (by omega)
    have hkb : argmaxFirst (diffsOf (i * L :: rowIter (i * L) m r)) ≤
        (rowIter (i * L) m r).length :=
      le_of_lt (rowStep_spec hOK' (by omega)).2.2
    have hins := jchInsertStep_structured P (rowIter (i * L) m r) C (i * L) r.length m
      (by omega) hkb
    rw [hins]
    rfl

theorem rows_decomp (L : ℕ) : ∀ (i b0 : ℕ) (Rp : List (List ℕ)),
    i < Rp.length →
    (∀ b, b < Rp.length → RowOK L (b0 + b) (Rp.getD b [])) →
    ∃ P C : List ℕ, P.length = prefLens Rp i ∧
      ∀ x : List ℕ, b0 * L :: (Rp.set i x).flatten =
        P ++ ((b0 + i) * L :: (x ++ C)) := by
  intro i
  induction i with
  | zero =>
    intro b0 Rp hi _
    cases Rp with
    | nil => simp at hi
    | cons r Rt =>
      refine ⟨[], Rt.flatten, rfl, ?_⟩
      intro x
      rw [List.set_cons_zero, List.flatten_cons, List.nil_append, Nat.add_zero]
  | succ i' ih =>
    intro b0 Rp hi hrows
    cases Rp with
    | nil => simp at hi
    | cons r Rt =>
      have hi' : i' < Rt.length := by
        rw [List.length_cons] at hi
        omega
      have hrows' : ∀ b, b < Rt.length → RowOK L (b0 + 1 + b) (Rt.getD b []) := by
        intro b hb
        have hrb := hrows (b + 1) (by rw [List.length_cons]; omega)
        rw [List.getD_cons_succ] at hrb
        have harith : b0 + (b + 1) = b0 + 1 + b := by omega
        rw [harith] at hrb
        exact hrb
      obtain ⟨P', C, hP', hx⟩ := ih (b0 + 1) Rt hi' hrows'
      have hr0 := hrows 0 (by rw [List.length_cons]; omega)
      rw [List.getD_cons_zero, Nat.add_zero] at hr0
      have hlastr := hr0.2.1
      have hrne : r ≠ [] := by
        intro hcon
        rw [hcon] at hlastr
        simp at hlastr
      have hrsplit : r.dropLast ++ [(b0 + 1) * L] = r := by
        have hgl := List.dropLast_append_getLast hrne
        have hglv : r.getLast hrne = (b0 + 1) * L := by
          have := List.getLast?_eq_getLast r hrne
          rw [this] at hlastr
          exact Option.some_injective _ hlastr
        rw [hglv] at hgl
        exact hgl
      refine ⟨b0 * L :: r.dropLast ++ P', C, ?_, ?_⟩
      · rw [List.length_append, List.length_cons, List.length_dropLast, hP', prefLens_cons]
        have hrpos : 0 < r.length := List.length_pos.2 hrne
        omega
      · intro x
        have hxi := hx x
        have harith2 : b0 + 1 + i' = b0 + (i' + 1) := by omega
        rw [harith2] at hxi
        rw [List.set_cons_succ, List.flatten_cons]
        conv_lhs => rw [← hrsplit]
        rw [List.cons_append, List.append_assoc, List.singleton_append, hxi]
        rw [List.cons_append, List.append_assoc]

theorem map_length_getD {R : List (List ℕ)} {i : ℕ} (h : i < R.length) :
    (R.map List.length).getD i 0 = (R.getD i []).length := by
  have h2 : i < (R.map List.length).length := by
    rw [List.length_map]
    exact h
  rw [List.getD_eq_getElem _ _ h2, List.getElem_map, List.getD_eq_getElem _ _ h]

theorem adjust_fold {L B minLengthSeq : ℕ} (hm : minLengthSeq ≤ L) (lens0 : List ℕ) :
    ∀ (ts : List ℕ) (Rp : List (List ℕ)) (cs : List ℕ) (st : List ℕ × List ℕ),
    st.1 = 0 :: Rp.flatten →
    st.2 = cs →
    Rp.length = B →
    (∀ b, b < B → RowOK L b (Rp.getD b [])) →
    ts.Nodup →
    (∀ i ∈ ts, i < B ∧ (Rp.getD i []).length = lens0.getD i 0 ∧
      lens0.getD i 0 < minLengthSeq) →
    cs.length = B + 1 →
    (∀ q, q ≤ B → cs.getD q 0 = prefLens Rp q) →
    (∀ b, b < B → b ∉ ts → minLengthSeq ≤ (Rp.getD b []).length) →
    ∃ Rf : List (List ℕ),
      (ts.foldl (fun stt i =>
        (jchAddCuts (stt.2.getD i 0) (stt.2.getD (i + 1) 0)
            (minLengthSeq - lens0.getD i 0) stt.1,
         (List.range stt.2.length).map (fun q =>
           if i + 1 ≤ q then stt.2.getD q 0 + (minLengthSeq - lens0.getD i 0)
           else stt.2.getD q 0))) st).1 = 0 :: Rf.flatten ∧
      Rf.length = B ∧
      (∀ b, b < B → RowOK L b (Rf.getD b [])) ∧
      (∀ b, b < B → minLengthSeq ≤ (Rf.getD b []).length) := by
  intro ts
  induction ts with
  | nil =>
    intro Rp cs st hst1 hst2 hB hrows hnd hmem hcslen hcs hlong
    refine ⟨Rp, ?_, hB, hrows, fun b hb => hlong b hb (List.not_mem_nil b)⟩
    rw [List.foldl_nil, hst1]
  | cons i ts' ih =>
    intro Rp cs st hst1 hst2 hB hrows hnd hmem hcslen hcs hlong
    rw [List.foldl_cons]
    have hi : i < B := (hmem i (List.mem_cons_self i ts')).1
    have hiR : i < Rp.length := by omega
    have hOKi : RowOK L i (Rp.getD i []) := hrows i hi
    have hleni : (Rp.getD i []).length = lens0.getD i 0 :=
      (hmem i (List.mem_cons_self i ts')).2.1
    have hshort : lens0.getD i 0 < minLengthSeq :=
      (hmem i (List.mem_cons_self i ts')).2.2
    have hm2 : (Rp.getD i []).length + (minLengthSeq - lens0.getD i 0) ≤ L := by omega
    obtain ⟨P, C, hP, hx⟩ := rows_decomp L i 0 Rp hiR (by
      intro b hb
      rw [Nat.zero_add]
      exact hrows b (by omega))
    simp only [Nat.zero_mul, Nat.zero_add] at hx
    have hidx : 0 :: Rp.flatten = P ++ (i * L :: (Rp.getD i [] ++ C)) := by
      have h1 := hx (Rp.getD i [])
      rw [set_getD_self [] Rp i hiR] at h1
      exact h1
    have hcsI : cs.getD i 0 = P.length := by
      rw [hcs i (by omega), hP]
    have hcsI1 : cs.getD (i + 1) 0 = P.length + (Rp.getD i []).length := by
      rw [hcs (i + 1) (by omega), prefLens_succ hiR, hP]
    have hadd := jchAddCuts_row hOKi (minLengthSeq - lens0.getD i 0) P C hm2
    obtain ⟨hOKi', hleni'⟩ := rowIter_spec hOKi (minLengthSeq - lens0.getD i 0) hm2
    have hst1' : (jchAddCuts (st.2.getD i 0) (st.2.getD (i + 1) 0)
        (minLengthSeq - lens0.getD i 0) st.1) =
        0 :: (Rp.set i (rowIter (i * L) (minLengthSeq - lens0.getD i 0)
          (Rp.getD i []))).flatten := by
      rw [hst1, hst2, hcsI, hcsI1, hidx, hadd,
        ← hx (rowIter (i * L) (minLengthSeq - lens0.getD i 0) (Rp.getD i []))]
    have hst2' : ((List.range st.2.length).map (fun q =>
        if i + 1 ≤ q then st.2.getD q 0 + (minLengthSeq - lens0.getD i 0)
        else st.2.getD q 0)) =
        ((List.range cs.length).map (fun q =>
        if i + 1 ≤ q then cs.getD q 0 + (minLengthSeq - lens0.getD i 0)
        else cs.getD q 0)) := by
      rw [hst2]
    have hBN : (Rp.set i (rowIter (i * L) (minLengthSeq - lens0.getD i 0)
        (Rp.getD i []))).length = B := by
      rw [List.length_set]
      exact hB
    have hrowsN : ∀ b, b < B → RowOK L b ((Rp.set i (rowIter (i * L)
        (minLengthSeq - lens0.getD i 0) (Rp.getD i []))).getD b []) := by
      intro b hb
      rcases eq_or_ne b i with rfl | hne
      · rw [getD_set_self [] Rp _ hiR]
        exact hOKi'
      · rw [getD_set_ne [] Rp _ hne]
        exact hrows b hb
    have hndN : ts'.Nodup := (List.nodup_cons.1 hnd).2
    have hiNot : i ∉ ts' := (List.nodup_cons.1 hnd).1
    have hmemN : ∀ i' ∈ ts', i' < B ∧
        ((Rp.set i (rowIter (i * L) (minLengthSeq - lens0.getD i 0)
          (Rp.getD i []))).getD i' []).length = lens0.getD i' 0 ∧
        lens0.getD i' 0 < minLengthSeq := by
      intro i' hi'
      have h0 := hmem i' (List.mem_cons_of_mem i hi')
      have hne : i' ≠ i := fun hcon => hiNot (hcon ▸ hi')
      rw [getD_set_ne [] Rp _ hne]
      exact h0
    have hcslenN : ((List.range cs.length).map (fun q =>
        if i + 1 ≤ q then cs.getD q 0 + (minLengthSeq - lens0.getD i 0)
        else cs.getD q 0)).length = B + 1 := by
      rw [List.length_map, List.length_range, hcslen]
    have hcsNq : ∀ q, q ≤ B → ((List.range cs.length).map (fun q =>
        if i + 1 ≤ q then cs.getD q 0 + (minLengthSeq - lens0.getD i 0)
        else cs.getD q 0)).getD q 0 =
        prefLens (Rp.set i (rowIter (i * L) (minLengthSeq - lens0.getD i 0)
          (Rp.getD i []))) q := by
      intro q hq
      rw [getD_map_range _ (by omega)]
      rcases Nat.lt_or_ge i q with hlt | hge
      · rw [if_pos (by omega)]
        have hgt := prefLens_set_gt Rp i q
          (rowIter (i * L) (minLengthSeq - lens0.getD i 0) (Rp.getD i [])) hiR hlt
        have hq' := hcs q hq
        omega
      · rw [if_neg (by omega)]
        rw [prefLens_set_le Rp i q _ hge, hcs q hq]
    have hlongN : ∀ b, b < B → b ∉ ts' → minLengthSeq ≤
        ((Rp.set i (rowIter (i * L) (minLengthSeq - lens0.getD i 0)
          (Rp.getD i []))).getD b []).length := by
      intro b hb hbnot
      rcases eq_or_ne b i with rfl | hne
      · rw [getD_set_self [] Rp _ hiR, hleni']
        omega
      · rw [getD_set_ne [] Rp _ hne]
        refine hlong b hb ?_
        intro hcon
        rcases List.mem_cons.1 hcon with h | h
        · exact hne h
        · exact hbnot h
    exact ih _ _ _ hst1' hst2' hBN hrowsN hndN hmemN hcslenN hcsNq hlongN

/-- C10 (amended): provided `minLengthSeq ≤ L` (the per-sequence frame
count `encodedData.size(1)`), the min-length adjustment loop of
`jchBoundaryDetector` (src/cpc/utils/misc.py lines 94-109) makes every
entry of the recomputed `compressed_lens` at least `minLengthSeq`: each
too-short sequence has its largest segment repeatedly split at the rounded
midpoint, one split per missing segment. -/
theorem jch_min_length_guarantee {L B minLengthSeq : ℕ} {R : List (List ℕ)}
    (hL : 0 < L) (hm : minLengthSeq ≤ L) (hB : R.length = B)
    (hrows : ∀ j < B, RowOK L j (R.getD j [])) :
    ∀ x ∈ jchAdjustedLens L minLengthSeq (0 :: R.flatten), minLengthSeq ≤ x := by
  intro x hx
  simp only [jchAdjustedLens, jchMinLengthAdjust] at hx
  simp only [cutpointsOf_of_rows hL hB hrows, diffsOf_cutsSpec] at hx
  have hnd : ((List.range (R.map List.length).length).filter
      (fun i => decide ((R.map List.length).getD i 0 < minLengthSeq))).Nodup :=
    (List.nodup_range _).filter _
  have hmem : ∀ i ∈ (List.range (R.map List.length).length).filter
      (fun i => decide ((R.map List.length).getD i 0 < minLengthSeq)),
      i < B ∧ (R.getD i []).length = (R.map List.length).getD i 0 ∧
      (R.map List.length).getD i 0 < minLengthSeq := by
    intro i hi
    obtain ⟨hir, hid⟩ := List.mem_filter.1 hi
    have hiB : i < B := by
      have hr := List.mem_range.1 hir
      rw [List.length_map, hB] at hr
      exact hr
    exact ⟨hiB, (map_length_getD (by omega)).symm, of_decide_eq_true hid⟩
  have hcslen : (cutsSpec R).length = B + 1 := by
    rw [cutsSpec_length, hB]
  have hcs : ∀ q, q ≤ B → (cutsSpec R).getD q 0 = prefLens R q := by
    intro q hq
    exact cutsSpec_getD R q (by omega)
  have hlong : ∀ b, b < B → b ∉ (List.range (R.map List.length).length).filter
      (fun i => decide ((R.map List.length).getD i 0 < minLengthSeq)) →
      minLengthSeq ≤ (R.getD b []).length := by
    intro b hb hnot
    have hbr : b ∈ List.range (R.map List.length).length := by
      rw [List.length_map, hB]
      exact List.mem_range.2 hb
    by_contra hcon
    refine hnot (List.mem_filter.2 ⟨hbr, ?_⟩)
    refine decide_eq_true ?_
    rw [map_length_getD (by omega)]
    omega
  obtain ⟨Rf, hfold, hlenf, hrowsf, hlongf⟩ := adjust_fold hm (R.map List.length)
    ((List.range (R.map List.length).length).filter
      (fun i => decide ((R.map List.length).getD i 0 < minLengthSeq)))
    R (cutsSpec R) (0 :: R.flatten, cutsSpec R) rfl rfl hB hrows hnd hmem hcslen hcs hlong
  rw [hfold] at hx
  rw [lens_of_rows hL hlenf hrowsf] at hx
  obtain ⟨rf, hrf, hxeq⟩ := List.mem_map.1 hx
  obtain ⟨b, hb, hbeq⟩ := List.mem_iff_getElem.1 hrf
  have hres := hlongf b (by omega)
  rw [List.getD_eq_getElem _ _ hb, hbeq] at hres
  omega


/-- C10 counterexample: the claim holds for no bound relating
`minLengthSeq` to the sequence length. With `L = 2` and a single sequence
of one segment (`idx = [0, 2]`), requesting `minLengthSeq = 3` makes the
loop split a length-1 segment: `torch.round((0+1)/2)` rounds the tie to
the even integer `0`, inserting the duplicate boundary `0`, so the
recomputed `compressed_lens` is `[1, 2]` and still has an entry below
`minLengthSeq`. -/
theorem jch_min_length_counterexample :
    0 < 2 ∧ RowOK 2 0 [2] ∧ [[2]].length = 1 ∧
    jchAdjustedLens 2 3 (0 :: [[2]].flatten) = [1, 2] ∧
    ¬ (∀ x ∈ jchAdjustedLens 2 3 (0 :: [[2]].flatten), 3 ≤ x) := by decide

/-- Witness for C10 at `L = 3`, `minLengthSeq = 2`,
`R = [[3], [5, 6]]`: the first sequence has one segment and gets one
midpoint split. -/
theorem jch_min_length_guarantee_witness :
    (0 < 3 ∧ 2 ≤ 3 ∧ ([[3], [5, 6]] : List (List ℕ)).length = 2 ∧
      (∀ j < 2, RowOK 3 j (([[3], [5, 6]] : List (List ℕ)).getD j []))) ∧
    ∀ x ∈ jchAdjustedLens 3 2 (0 :: ([[3], [5, 6]] : List (List ℕ)).flatten), 2 ≤ x := by
  refine ⟨⟨by decide, by decide, by decide, by decide⟩, ?_⟩
  exact @jch_min_length_guarantee 3 2 2 [[3], [5, 6]]
    (by decide) (by decide) (by decide) (by decide)
